import Mathlib

/-!
Verification of the DASTrie core (src/include/dastrie.h) against its
specification.  The C++ is shallowly embedded: byte strings become `List Nat`
(each entry a byte value 0..255), machine integers become `Nat`/`Int` with
explicit wraparound where the source relies on it, mutation becomes explicit
state passing, and C++ exceptions become `Except`.  The two unbounded loops of
the source (the base-search loop of `builder::arrange` and the recursion of
`arrange` itself, which the source bounds only by the input) take a fuel
argument; running out of fuel is the distinct outcome `BErr.noFuel`.
The progress callback and the `stat_type` statistics are observers that do not
feed back into any computation and are not modelled.
-/

namespace Dastrie

/-- Bytes are natural numbers 0..255 (uint8_t in the source). -/
abbrev Byte := Nat

/-- Reading character `p` of a C string modelled as a byte list: positions at
or past the end of the list read as the terminator 0 (the source reads
`key[p]` of a null-terminated string and never looks past the terminator). -/
def byteAt (k : List Byte) (p : Nat) : Nat := k.getD p 0

/-- std::strlen of the C string held in a byte list: the number of bytes
before the first 0 (or before the end of the list). -/
def strlenC (l : List Byte) : Nat := (l.takeWhile (fun b => b != 0)).length

/-- std::memcmp over `n` bytes, equality only.  Both operands are read with
0-padding past the end of their lists; for the second operand this is the
C-string convention (the byte after the logical string is its terminator). -/
def memEq (data : List Byte) (off : Nat) (str : List Byte) (n : Nat) : Bool :=
  (List.range n).all (fun j => data.getD (off + j) 0 == str.getD j 0)

/-! ### itail: the reader of a tail array (class `itail` of the source) -/

/-- Reader state over a tail array: `m_cont` and `m_offset` of class `itail`. -/
structure ITail where
  cont : List Byte
  offset : Nat
deriving DecidableEq

/-- itail::seekg: move the read position, but only when the offset is inside
the array. -/
def ITail.seekg (t : ITail) (o : Nat) : ITail :=
  if o < t.cont.length then { t with offset := o } else t

/-- itail::strlen: length of the string at the current read position. -/
def ITail.strlenAt (t : ITail) : Nat := strlenC (t.cont.drop t.offset)

/-- The C string stored at the current read position (what `operator>>` for
`std::string` extracts). -/
def ITail.cstr (t : ITail) : List Byte := (t.cont.drop t.offset).takeWhile (fun b => b != 0)

/-- itail::match_string: `length = strlen(str) + 1`; succeed only when
`m_offset + length < m_cont.size()` and the `length` bytes at the read
position equal the query string including its terminator. -/
def ITail.matchString (t : ITail) (str : List Byte) : Bool :=
  let length := strlenC str + 1
  decide (t.offset + length < t.cont.length) && memEq t.cont t.offset str length

/-- itail::match_string_partial: `length` is the stored string's length;
succeed only when `m_offset + length + 1 < m_cont.size()`, the stored bytes
equal the first `length` bytes of the query, and the stored terminator is 0. -/
def ITail.matchStrPart (t : ITail) (str : List Byte) : Bool :=
  let length := t.strlenAt
  decide (t.offset + length + 1 < t.cont.length) &&
    (memEq t.cont t.offset str length && decide (t.cont.getD (t.offset + length) 0 = 0))

/-! ### Double-array element traits -/

/-- 32-bit two's-complement value of a 32-bit pattern. -/
def toInt32 (e : Nat) : Int := if e < 2 ^ 31 then (e : Int) else (e : Int) - 2 ^ 32

/-- Arithmetic shift right by 8 of a 32-bit pattern: the sign bit replicates
into the top 8 bits. -/
def asr8 (e : Nat) : Nat := if e < 2 ^ 31 then e / 2 ^ 8 else e / 2 ^ 8 + (2 ^ 32 - 2 ^ 24)

/-- doublearray4_traits::get_base: `elem >> 8` on the int32 element
(arithmetic shift). -/
def da4getBase (e : Nat) : Int := toInt32 (asr8 e)

/-- doublearray4_traits::get_check: `elem & 0x000000FF`. -/
def da4getCheck (e : Nat) : Nat := e % 2 ^ 8

/-- doublearray4_traits::set_base: `(elem & 0x000000FF) | (v << 8)` with
32-bit wraparound; the operands of the bitwise or have disjoint bits
(the second is a multiple of 256), so the or is written as addition. -/
def da4setBase (e : Nat) (v : Int) : Nat :=
  e % 2 ^ 8 + ((v * 2 ^ 8) % (2 ^ 32 : Int)).toNat

/-- doublearray4_traits::set_check: `(elem & 0xFFFFFF00) | v`. -/
def da4setCheck (e : Nat) (v : Byte) : Nat := e / 2 ^ 8 * 2 ^ 8 + v

/-- A 5-byte element (doublearray5_traits::element_type): bytes 0..3 are a
little-endian int32 BASE pattern, byte 4 is CHECK. -/
structure Elem5 where
  baseBits : Nat
  chk : Nat
deriving DecidableEq

/-- The operations a double-array element type provides, mirroring the
`doublearray_traits` template parameter of the source. -/
structure DATraits where
  E : Type
  dflt : E
  maxBase : Nat
  getBase : E → Int
  getCheck : E → Nat
  setBase : E → Int → E
  setCheck : E → Nat → E

/-- doublearray4_traits: a 32-bit pattern per element, max_base 0x007FFFFF. -/
def da4 : DATraits :=
  ⟨Nat, 0, 0x007FFFFF, da4getBase, da4getCheck, da4setBase, da4setCheck⟩

/-- doublearray5_traits: 4 base bytes and a check byte, max_base 0x7FFFFFFF.
set_base stores the int32 pattern of `v` (memcpy of the little-endian value). -/
def da5 : DATraits :=
  ⟨Elem5, ⟨0, 0⟩, 0x7FFFFFFF,
    fun e => toInt32 e.baseBits,
    fun e => e.chk,
    fun e v => ⟨(v % (2 ^ 32 : Int)).toNat, e.chk⟩,
    fun e k => ⟨e.baseBits, k⟩⟩

/-! ### Value serialization (the `operator<<` / `operator>>` contract) -/

/-- A value codec: `wr` is what `otail::operator<<` appends for a value, `rd`
is what `itail::operator>>` reads from a tail array at an offset, returning
the value and the new offset. -/
structure Codec (V : Type) where
  wr : V → List Byte
  rd : List Byte → Nat → V × Nat

/-- The `empty_type` codec: writes nothing, reads nothing. -/
def emptyCodec : Codec Unit := ⟨fun _ => [], fun _ o => ((), o)⟩

/-! ### The read-only trie (class `trie` of the source) -/

/-- Reader state: `m_table`, `m_da`, `m_tail` and `m_n` of class `trie`. -/
structure Trie (T : DATraits) where
  table : List Byte
  da : List T.E
  tl : ITail
  n : Nat

/-- trie::descend: from node `i` on byte `c`.  Requires `base(i) > 0`; the
child is at `base + table[c] + 1` and must carry `check = table[c]`;
otherwise the result is INVALID_INDEX = 0. -/
def descend (T : DATraits) (t : Trie T) (i : Nat) (c : Byte) : Nat :=
  let base := T.getBase (t.da.getD i T.dflt)
  if base ≤ 0 then 0
  else
    let check := t.table.getD c 0
    let next := base.toNat + check + 1
    if t.da.length ≤ next then 0
    else if T.getCheck (t.da.getD next T.dflt) ≠ check then 0
    else next

/-- The descent loop of trie::locate, walking the key's bytes from node `cur`.
Returns the tail offset of the leaf reached together with the unconsumed key
suffix (the pointer `p` after the loop), or `none` when the walk fails.  The
source's pointer `p` advances past the current byte on reaching a leaf only
when that byte is not the terminator. -/
def locLoop (T : DATraits) (t : Trie T) : Nat → List Byte → Option (Nat × List Byte)
  | cur, [] =>
    let cur' := descend T t cur 0
    if cur' = 0 then none
    else
      let base := T.getBase (t.da.getD cur' T.dflt)
      if base < 0 then some ((-base).toNat, []) else none
  | cur, c :: rest =>
    if c = 0 then
      let cur' := descend T t cur 0
      if cur' = 0 then none
      else
        let base := T.getBase (t.da.getD cur' T.dflt)
        if base < 0 then some ((-base).toNat, c :: rest) else none
    else
      let cur' := descend T t cur c
      if cur' = 0 then none
      else
        let base := T.getBase (t.da.getD cur' T.dflt)
        if base < 0 then some ((-base).toNat, rest)
        else locLoop T t cur' rest

/-- trie::locate: walk down from INITIAL_INDEX = 1; on reaching a leaf, seek
the tail to the leaf's offset and compare the stored string with the key's
remainder; on success return `offset + strlen + 1` (where the value starts),
otherwise 0.  The tail read position is part of the returned state. -/
def locate (T : DATraits) (t : Trie T) (key : List Byte) : Nat × Trie T :=
  match locLoop T t 1 key with
  | none => (0, t)
  | some (offset, rest) =>
    let tl := t.tl.seekg offset
    let t' := { t with tl := tl }
    if tl.matchString rest then (offset + tl.strlenAt + 1, t') else (0, t')

/-- trie::in: membership is `locate(key) != 0`. -/
def trieIn (T : DATraits) (t : Trie T) (key : List Byte) : Bool × Trie T :=
  let r := locate T t key
  (decide (r.1 ≠ 0), r.2)

/-- trie::find: on `locate(key) != 0`, seek the tail there and read the value. -/
def trieFind (T : DATraits) {V : Type} (codec : Codec V) (t : Trie T) (key : List Byte) :
    Bool × Option V × Trie T :=
  let r := locate T t key
  if r.1 ≠ 0 then
    let tl := r.2.tl.seekg r.1
    let vo := codec.rd tl.cont tl.offset
    (true, some vo.1, { r.2 with tl := { tl with offset := vo.2 } })
  else (false, none, r.2)

/-! ### The prefix cursor (trie::prefix_cursor and trie::next_prefix) -/

/-- Cursor state: query, matched length, last value read, current node
(`prefix_cursor` fields; the value starts out indeterminate, modelled as
`none`). -/
structure PfxCursor (V : Type) where
  query : List Byte
  length : Nat
  val : Option V
  cur : Nat

/-- A fresh cursor as `trie::prefix(str)` constructs it. -/
def mkCursor {V : Type} (q : List Byte) : PfxCursor V := ⟨q, 0, none, 1⟩

/-- Outcome of one `next_prefix` call: a boolean result with the new cursor
and trie (tail position may have moved), the source's bare `throw
exception("")` on corrupt data, or fuel exhaustion of the model. -/
inductive NPOut (T : DATraits) (V : Type) where
  | ret (b : Bool) (pfx : PfxCursor V) (t : Trie T)
  | corrupt
  | fuelOut

/-- The code after trie::next_prefix's descent loop: seek the tail to the
leaf's offset, match the stored string as a prefix of the query's remainder;
on success extend the matched length, skip past the stored terminator and
read the value. -/
def npTail (T : DATraits) {V : Type} (codec : Codec V) (t : Trie T)
    (pfx : PfxCursor V) (offset : Nat) : NPOut T V :=
  let t₁ := { t with tl := t.tl.seekg offset }
  if t₁.tl.matchStrPart (pfx.query.drop pfx.length) then
    let pf := t₁.tl.strlenAt
    let pfx₁ := { pfx with length := pfx.length + pf }
    let t₂ := { t₁ with tl := t₁.tl.seekg (offset + pf + 1) }
    let vo := codec.rd t₂.tl.cont t₂.tl.offset
    .ret true { pfx₁ with val := some vo.1 } { t₂ with tl := { t₂.tl with offset := vo.2 } }
  else .ret false pfx t₁

/-- The descent loop of trie::next_prefix.  Each pass descends on the query
byte at `length` (failure ends the enumeration, with the cursor already moved
to INVALID_INDEX); a leaf breaks to the postfix match; otherwise a descent on
byte 0 may reveal a key ending here, whose (empty) stored string is checked
and whose value is read; otherwise the pass ends at the query's terminator or
advances `length`. -/
def npLoop (T : DATraits) {V : Type} (codec : Codec V) :
    Nat → Trie T → PfxCursor V → NPOut T V
  | 0, _, _ => .fuelOut
  | fuel + 1, t, pfx =>
    let c := byteAt pfx.query pfx.length
    let cur' := descend T t pfx.cur c
    let pfx₁ := { pfx with cur := cur' }
    if cur' = 0 then .ret false pfx₁ t
    else
      let base := T.getBase (t.da.getD cur' T.dflt)
      if base < 0 then
        let pfx₂ := if c ≠ 0 then { pfx₁ with length := pfx₁.length + 1 } else pfx₁
        npTail T codec t pfx₂ (-base).toNat
      else
        let cur0 := descend T t cur' 0
        let b0 := T.getBase (t.da.getD cur0 T.dflt)
        if cur0 ≠ 0 ∧ b0 ≠ 0 then
          if 0 ≤ b0 then .corrupt
          else
            let t₁ := { t with tl := t.tl.seekg (-b0).toNat }
            if t₁.tl.strlenAt ≠ 0 then .corrupt
            else
              let pfx₂ := { pfx₁ with length := pfx₁.length + 1 }
              let t₂ := { t₁ with tl := t₁.tl.seekg ((-b0).toNat + 1) }
              let vo := codec.rd t₂.tl.cont t₂.tl.offset
              .ret true { pfx₂ with val := some vo.1 } { t₂ with tl := { t₂.tl with offset := vo.2 } }
        else
          if c = 0 then .ret false pfx₁ t
          else npLoop T codec fuel t { pfx₁ with length := pfx₁.length + 1 }

/-- trie::next_prefix: nothing more once `length` reaches the query's string
length; otherwise run the descent loop.  The fuel `strlen(q) + 1 - length`
bounds the loop's passes (each pass returns or advances `length`, and a pass
at the terminator returns). -/
def nextPfx (T : DATraits) {V : Type} (codec : Codec V) (t : Trie T)
    (pfx : PfxCursor V) : NPOut T V :=
  let qlen := strlenC pfx.query
  if qlen ≤ pfx.length then .ret false pfx t
  else npLoop T codec (qlen + 1 - pfx.length) t pfx

/-- Repeated `next()` calls: the (length, value) pairs of the hits, in order.
`steps` bounds the number of calls. -/
def enumPfx (T : DATraits) {V : Type} (codec : Codec V) :
    Nat → Trie T → PfxCursor V → List (Nat × Option V)
  | 0, _, _ => []
  | steps + 1, t, pfx =>
    match nextPfx T codec t pfx with
    | .ret true pfx' t' => (pfx'.length, pfx'.val) :: enumPfx T codec steps t' pfx'
    | _ => []

/-! ### The builder (class `builder` of the source)

Exceptions of `builder::arrange` become error values; `noFuel` is the extra
outcome of running out of fuel (the source's base-search loop and recursion
are unbounded). -/

/-- Builder error outcomes: the four exceptions `arrange` can throw, plus
fuel exhaustion of the model. -/
inductive BErr where
  | unsorted
  | duplicate
  | capLeaf
  | capNode
  | noFuel
deriving DecidableEq

/-- builder::record_type. -/
structure Record (V : Type) where
  key : List Byte
  val : V

/-- Mutable builder state: `m_da`, `m_tail` (being written), `m_used_bases`
and the vacancy list `m_elink`. -/
structure BState (T : DATraits) where
  da : List T.E
  tl : List Byte
  usedBases : List Bool
  elink : List (Nat × Nat)

/-- builder::da_expand: grow the double array with default elements. -/
def daExpand (T : DATraits) (s : BState T) (size : Nat) : BState T :=
  if s.da.length < size then
    { s with da := s.da ++ List.replicate (size - s.da.length) T.dflt }
  else s

/-- builder::set_base on the double array at index `i`. -/
def bsSetBase (T : DATraits) (s : BState T) (i : Nat) (v : Int) : BState T :=
  { s with da := s.da.set i (T.setBase (s.da.getD i T.dflt) v) }

/-- builder::set_check on the double array at index `i`. -/
def bsSetCheck (T : DATraits) (s : BState T) (i : Nat) (v : Byte) : BState T :=
  { s with da := s.da.set i (T.setCheck (s.da.getD i T.dflt) v) }

/-- builder::da_in_use: inside the array and BASE nonzero. -/
def daInUse (T : DATraits) (s : BState T) (i : Nat) : Bool :=
  decide (i < s.da.length) && decide (T.getBase (s.da.getD i T.dflt) ≠ 0)

/-- builder::vlist_next: the successor in the vacancy list; beyond the list,
slot `i + 1` (every slot past the end is vacant). -/
def vlNext (l : List (Nat × Nat)) (i : Nat) : Nat :=
  if i < l.length then (l.getD i (0, 0)).2 else i + 1

/-- builder::vlist_expand: append the new slots to the tail of the vacancy
list in index order; slot 0 is the sentinel whose prev is the last vacant
slot. -/
def vlExpand (l : List (Nat × Nat)) (size : Nat) : List (Nat × Nat) :=
  if l.length < size then
    let first := l.length
    let back0 := (l.getD 0 (0, 0)).1
    let ext := (List.range (size - first)).map
      (fun j => (if j = 0 then back0 else first + j - 1, first + j + 1))
    let l' := l ++ ext
    l'.set 0 (size - 1, (l'.getD 0 (0, 0)).2)
  else l

/-- builder::vlist_use: unlink slot `i`; when its successor lies beyond the
list, extend first exactly as the source does. -/
def vlUse (l : List (Nat × Nat)) (i : Nat) : List (Nat × Nat) :=
  let prev := (l.getD i (0, 0)).1
  let next := (l.getD i (0, 0)).2
  let l₁ :=
    if l.length ≤ next then
      let l' := l ++ List.replicate (next + 1 - l.length) (0, 0)
      let l'' := l'.set next ((l'.getD next (0, 0)).1, next + 1)
      l''.set 0 (next, (l''.getD 0 (0, 0)).2)
    else l
  let l₂ := l₁.set prev ((l₁.getD prev (0, 0)).1, next)
  l₂.set next (prev, (l₂.getD next (0, 0)).2)

/-- The suffix of a key from position `p` as builder::arrange appends it to
the tail: the remaining C-string bytes followed by the terminator (the source
calls `write_string(rec.key, p)`). -/
def cstrFrom (k : List Byte) (p : Nat) : List Byte :=
  ((k.drop p).takeWhile (fun b => b != 0)) ++ [0]

/-- The grouping scan of builder::arrange after the first record: `pc` is the
previous record's byte at position `p`, `cur` the current group (reversed).
A greater byte closes the group, a smaller byte is the unsorted-input error. -/
def scanRun {V : Type} (p : Nat) : Byte → List (Record V) → List (Record V) →
    Except BErr (List (Byte × List (Record V)))
  | pc, cur, [] => .ok [(pc, cur.reverse)]
  | pc, cur, r :: rs =>
    let c := byteAt r.key p
    if pc < c then
      match scanRun p c [r] rs with
      | .ok gs => .ok ((pc, cur.reverse) :: gs)
      | .error e => .error e
    else if c < pc then .error .unsorted
    else scanRun p pc (r :: cur) rs

/-- The child groups of a record range at position `p`: maximal runs of equal
bytes `key[p]`, in the order scanned (the source's `children` array with its
`first`/`last` ranges). -/
def scanGroups {V : Type} (p : Nat) :
    List (Record V) → Except BErr (List (Byte × List (Record V)))
  | [] => .ok []
  | r :: rs => scanRun p (byteAt r.key p) [r] rs

/-- The base-search loop of builder::arrange: walk the vacancy list from
`index`, skip indices below `INITIAL_INDEX + offset₀` and used bases, expand
the arrays to `base + max_offset + 1`, and accept when the slots of all
remaining children are free.  Expansion done for a rejected candidate persists,
as in the source. -/
def findBase (T : DATraits) (off0 maxOff : Nat) (offsRest : List Nat) :
    Nat → BState T → Nat → Except BErr (Nat × BState T)
  | 0, _, _ => .error .noFuel
  | fuel + 1, s, index =>
    let index' := vlNext s.elink index
    if index' < 1 + off0 then findBase T off0 maxOff offsRest fuel s index'
    else
      let base := index' - off0
      if decide (base < s.usedBases.length) && s.usedBases.getD base false then
        findBase T off0 maxOff offsRest fuel s index'
      else
        let s₁ := daExpand T s (base + maxOff + 1)
        let s₂ := { s₁ with elink := vlExpand s₁.elink (base + maxOff + 1) }
        if offsRest.all (fun off => !daInUse T s₂ (base + off)) then .ok (base, s₂)
        else findBase T off0 maxOff offsRest fuel s₂ index'

/-- Registration of a used base value (`m_used_bases[base] = true`, growing
the vector as needed). -/
def ubRegister (T : DATraits) (s : BState T) (base : Nat) : BState T :=
  let s₁ :=
    if s.usedBases.length ≤ base then
      { s with usedBases := s.usedBases ++ List.replicate (base + 1 - s.usedBases.length) false }
    else s
  { s₁ with usedBases := s₁.usedBases.set base true }

/-- Reservation of the child slots: BASE = 1 tentatively, and each slot is
unlinked from the vacancy list. -/
def reserveKids (T : DATraits) (base : Nat) : List Nat → BState T → BState T
  | [], s => s
  | off :: rest, s =>
    let s₁ := bsSetBase T s (base + off) 1
    let s₂ := { s₁ with elink := vlUse s₁.elink (base + off) }
    reserveKids T base rest s₂

/-- The child loop of builder::arrange: `arr` performs the recursive call at
one fuel level less.  A child on byte 0 must own exactly one record
(otherwise the duplicate-key error) and recurses at the same position `p`;
other children recurse at `p + 1`.  CHECK is set to `offset - 1 = table[c]`. -/
def arrangeKids (T : DATraits) {V : Type}
    (arr : Nat → List (Record V) → BState T → Except BErr (Int × BState T))
    (table : List Byte) (p base : Nat) :
    List (Byte × List (Record V)) → BState T → Except BErr (BState T)
  | [], s => .ok s
  | (c, grp) :: rest, s =>
    let off := table.getD c 0 + 1
    if c ≠ 0 then
      match arr (p + 1) grp s with
      | .error e => .error e
      | .ok (b, s₁) =>
        let s₂ := bsSetBase T s₁ (base + off) b
        let s₃ := bsSetCheck T s₂ (base + off) (off - 1)
        arrangeKids T arr table p base rest s₃
    else
      if grp.length ≠ 1 then .error .duplicate
      else
        match arr p grp s with
        | .error e => .error e
        | .ok (b, s₁) =>
          let s₂ := bsSetBase T s₁ (base + off) b
          let s₃ := bsSetCheck T s₂ (base + off) (off - 1)
          arrangeKids T arr table p base rest s₃

/-- One level of builder::arrange; `arr` performs recursive calls.  A single
record is a leaf: its key suffix and serialized value go to the tail and the
negated offset is the BASE.  Otherwise group by `key[p]`, search a base,
check capacity, register the base, reserve and then fill the child slots. -/
def arrangeGo (T : DATraits) {V : Type} (wr : V → List Byte) (table : List Byte)
    (fuel : Nat) (arr : Nat → List (Record V) → BState T → Except BErr (Int × BState T))
    (p : Nat) (recs : List (Record V)) (s : BState T) : Except BErr (Int × BState T) :=
  match recs with
  | [r] =>
    let offset := s.tl.length
    if T.maxBase < offset then .error .capLeaf
    else .ok (-(offset : Int), { s with tl := s.tl ++ cstrFrom r.key p ++ wr r.val })
  | recs =>
    match scanGroups p recs with
    | .error e => .error e
    | .ok children =>
      let offs := children.map (fun g => table.getD g.1 0 + 1)
      match offs with
      | [] => .error .noFuel
      | off0 :: offsRest =>
        let maxOff := offs.foldl max 0
        match findBase T off0 maxOff offsRest fuel s 0 with
        | .error e => .error e
        | .ok (base, s₁) =>
          if T.maxBase ≤ base + maxOff then .error .capNode
          else
            let s₂ := ubRegister T s₁ base
            let s₃ := reserveKids T base offs s₂
            match arrangeKids T arr table p base children s₃ with
            | .error e => .error e
            | .ok s₄ => .ok ((base : Int), s₄)

/-- builder::arrange with a fuel bound on the recursion depth and on each
base search.  `arrange (fuel+1)` performs one level with recursive calls at
fuel `fuel`; at fuel 0 the model gives up with `noFuel`. -/
def arrange (T : DATraits) {V : Type} (wr : V → List Byte) (table : List Byte)
    (fuel : Nat) : Nat → List (Record V) → BState T → Except BErr (Int × BState T) :=
  Nat.rec (motive := fun _ => Nat → List (Record V) → BState T → Except BErr (Int × BState T))
    (fun _ _ _ => .error .noFuel)
    (fun fuel' ih => arrangeGo T wr table fuel' ih)
    fuel

/-- builder::build over records already in memory, for a given character
table (the source first computes `m_table` with `build_table`, modelled
separately): reset the state as `clear` does, create the initial node, then
`set_base(1, arrange(0, first, last))`.  `m_used_bases` starts empty (a fresh
builder). -/
def buildDA (T : DATraits) {V : Type} (wr : V → List Byte) (table : List Byte)
    (fuel : Nat) (recs : List (Record V)) : Except BErr (BState T) :=
  let s0 : BState T := { da := [T.dflt], tl := [0], usedBases := [], elink := [(0, 1)] }
  let s1 := daExpand T s0 2
  let s2 := { s1 with elink := vlExpand s1.elink 2 }
  let s3 := bsSetBase T s2 1 1
  let s4 := { s3 with elink := vlUse s3.elink 1 }
  match arrange T wr table fuel 0 recs s4 with
  | .error e => .error e
  | .ok (b, s5) => .ok (bsSetBase T s5 1 b)

/-- trie::assign(da, tail, table), the assign-from-builder path: the reader
takes the built arrays and the table; `m_n` is not assigned on this path and
no lookup reads it, so the model stores 0. -/
def trieOfBuilder (T : DATraits) (s : BState T) (table : List Byte) : Trie T :=
  { table := table, da := s.da, tl := { cont := s.tl, offset := 0 }, n := 0 }

/-! ### builder::build_table

The source counts character frequencies (`st[c].freq`, a `double` that is
only ever incremented by 1 and compared, hence a `Nat` here), then sorts the
256 entries with `std::sort` and `comp_freq` (`x.freq > y.freq`) and sets
`table[st[i].c] = i`.  `std::sort` guarantees only that the result is sorted
with respect to the comparator; the order of entries with equal frequency is
unspecified.  The modelling is therefore relational: any frequency-sorted
permutation of the characters is a possible sort result. -/

/-- The bytes of a key that the frequency count visits (the loop stops at the
terminator). -/
def keyBytes (k : List Byte) : List Byte := k.takeWhile (fun b => b != 0)

/-- The counted frequency of byte `c`: its occurrences across all keys, plus
one occurrence of byte 0 per record. -/
def freqOf {V : Type} (recs : List (Record V)) (c : Byte) : Nat :=
  (recs.map (fun r => (keyBytes r.key).count c)).sum + (if c = 0 then recs.length else 0)

/-- Whether a character order is non-increasing in frequency: the
postcondition `std::sort` guarantees for `comp_freq` (and nothing more). -/
def sortedByFreqB {V : Type} (recs : List (Record V)) : List Byte → Bool
  | [] => true
  | [_] => true
  | a :: b :: rest => decide (freqOf recs b ≤ freqOf recs a) && sortedByFreqB recs (b :: rest)

/-- The character table obtained from a sorted order: `table[st[i].c] = i`,
i.e. each character maps to its position in the order. -/
def tableFromOrder (order : List Byte) : List Byte :=
  (List.range 256).map (fun c => order.indexOf c)

/-- build_table's relational specification: some frequency-sorted permutation
of the 256 characters produced the table. -/
def buildTableRel {V : Type} (recs : List (Record V)) (table : List Byte) : Prop :=
  ∃ order : List Byte, order.Perm (List.range 256) ∧ sortedByFreqB recs order = true ∧
    table = tableFromOrder order

/-- Modelled from the spec's words, for comparison with the code: the rank the
claim asserts, ordering bytes by strictly decreasing frequency with ties
broken by ascending byte value.  The rank of `c` is the number of bytes that
come strictly before it in that order. -/
def claimedRank {V : Type} (recs : List (Record V)) (c : Byte) : Nat :=
  ((List.range 256).filter (fun d =>
    decide (freqOf recs c < freqOf recs d) ||
      (decide (freqOf recs d = freqOf recs c) && decide (d < c)))).length

/-- Modelled from the spec's words: the uniquely determined table the claim
describes. -/
def claimedTable {V : Type} (recs : List (Record V)) : List Byte :=
  (List.range 256).map (claimedRank recs)

/-! ### End-to-end helpers for concrete runs -/

/-- Build over `recs` with a given character table, then `find(key)` on the
resulting trie: `none` when the build fails, otherwise the boolean result of
`find`. -/
def findAfterBuild (T : DATraits) {V : Type} (codec : Codec V) (table : List Byte)
    (fuel : Nat) (recs : List (Record V)) (key : List Byte) : Option Bool :=
  match buildDA T codec.wr table fuel recs with
  | .error _ => none
  | .ok s => some (trieFind T codec (trieOfBuilder T s table) key).1

/-- Build over `recs` with a given character table, then one `next()` call of
a fresh prefix cursor for query `q`. -/
def pfxFirstAfterBuild (T : DATraits) {V : Type} (codec : Codec V) (table : List Byte)
    (fuel : Nat) (recs : List (Record V)) (q : List Byte) : Option Bool :=
  match buildDA T codec.wr table fuel recs with
  | .error _ => none
  | .ok s =>
    match nextPfx T codec (trieOfBuilder T s table) (mkCursor q) with
    | .ret b _ _ => some b
    | _ => none

/-! ### Claim C1 -/

/-- A character order valid for the single record with key "a": frequencies
are 1 for bytes 0 and 97 and 0 for the rest. -/
def ordA : List Byte := [0, 97] ++ ((List.range 256).filter (fun c => decide (c ≠ 0) && decide (c ≠ 97)))

/-! ### Claim C2 -/

/-- A character order valid for the records "a", "b": byte 0 has frequency 2,
bytes 97 and 98 frequency 1 (ascending tie order chosen here). -/
def ordB : List Byte := [0, 97, 98] ++
  ((List.range 256).filter (fun c => decide (c ≠ 0) && decide (c ≠ 97) && decide (c ≠ 98)))

/-- The records "a" and "b" with empty values. -/
def recsAB : List (Record Unit) := [⟨[97], ()⟩, ⟨[98], ()⟩]

/-! ### Claim C6 -/

/-- The one-record input with key "ab": bytes 0, 97 and 98 all have
frequency 1, a three-way tie. -/
def recsC6 : List (Record Unit) := [⟨[97, 98], ()⟩]

/-- A frequency-sorted order for `recsC6` that breaks the tie descending:
98 before 97 before 0. -/
def ordX : List Byte := [98, 97, 0] ++
  ((List.range 256).filter (fun c => decide (c ≠ 0) && decide (c ≠ 97) && decide (c ≠ 98)))

/-! ### Claims C4 and C5: inputs on which the build must fail -/

/-- Whether an `Except` value is a success. -/
def exOk {ε α : Type} : Except ε α → Bool
  | .ok _ => true
  | .error _ => false

/-- The later key is smaller at the branching character: the keys agree on
positions `p ≤ j < q` and the later key's byte at `q` is smaller. -/
def descentFrom (p : Nat) (k₁ k₂ : List Byte) : Prop :=
  ∃ q, p ≤ q ∧ (∀ j, p ≤ j → j < q → byteAt k₁ j = byteAt k₂ j) ∧ byteAt k₂ q < byteAt k₁ q

/-- Two consecutive records in non-ascending key order at the branching
character, looking only at positions from `p` on. -/
def hasDescentPair {V : Type} (p : Nat) (recs : List (Record V)) : Prop :=
  ∃ (l m : List (Record V)) (r₁ r₂ : Record V),
    recs = l ++ r₁ :: r₂ :: m ∧ descentFrom p r₁.key r₂.key

/-- The two keys agree up to a common terminator at position `q ≥ p`: the
shape duplicate C-string keys have from position `p` on. -/
def dupFrom (p : Nat) (k₁ k₂ : List Byte) : Prop :=
  ∃ q, p ≤ q ∧ byteAt k₁ q = 0 ∧ ∀ j, p ≤ j → j ≤ q → byteAt k₁ j = byteAt k₂ j

/-- Two records (anywhere in the range, in order) whose keys are duplicate
C strings from position `p` on. -/
def hasDupPair {V : Type} (p : Nat) (recs : List (Record V)) : Prop :=
  ∃ (l mid m : List (Record V)) (r₁ r₂ : Record V),
    recs = l ++ r₁ :: (mid ++ r₂ :: m) ∧ dupFrom p r₁.key r₂.key

/-- The maximal runs of equal bytes `key[p]`: the groups the scan of
builder::arrange produces when it does not fail. -/
def groupRuns {V : Type} (p : Nat) : List (Record V) → List (Byte × List (Record V))
  | [] => []
  | r :: rs =>
    (byteAt r.key p, r :: rs.takeWhile (fun x => byteAt x.key p == byteAt r.key p)) ::
      groupRuns p (rs.dropWhile (fun x => byteAt x.key p == byteAt r.key p))
termination_by l => l.length
decreasing_by
  have h := (List.dropWhile_sublist (l := rs)
    (fun x => byteAt x.key p == byteAt r.key p)).length_le
  simp only [List.length_cons]
  omega

/-- The error a build signals, if any. -/
def buildErr (T : DATraits) {V : Type} (wr : V → List Byte) (table : List Byte)
    (fuel : Nat) (recs : List (Record V)) : Option BErr :=
  match buildDA T wr table fuel recs with
  | .error e => some e
  | .ok _ => none

/-- The input "a", "a", "bc", "bb": records 3 and 4 are consecutive and in
non-ascending order at their branching character (position 1), and records
1 and 2 are byte-identical. -/
def recs4 : List (Record Unit) := [⟨[97], ()⟩, ⟨[97], ()⟩, ⟨[98, 99], ()⟩, ⟨[98, 98], ()⟩]

/-- A frequency-sorted order for `recs4` (frequencies: byte 0 four times,
98 three times, 97 twice, 99 once; no ties among appearing bytes). -/
def ord4 : List Byte := [0, 98, 97, 99] ++ ((List.range 256).filter
  (fun c => decide (c ≠ 0) && decide (c ≠ 97) && decide (c ≠ 98) && decide (c ≠ 99)))

/-- The input "b", "a", "a": records 2 and 3 are byte-identical, and records
1 and 2 descend at position 0. -/
def recs5 : List (Record Unit) := [⟨[98], ()⟩, ⟨[97], ()⟩, ⟨[97], ()⟩]

/-- A frequency-sorted order for `recs5` (frequencies: byte 0 three times,
97 twice, 98 once). -/
def ord5 : List Byte := [0, 97, 98] ++ ((List.range 256).filter
  (fun c => decide (c ≠ 0) && decide (c ≠ 97) && decide (c ≠ 98)))

/-! ### Claim C7: trie::read and trie::assign over a stream model

The stream model follows std::istream semantics: a read that yields fewer
bytes than requested consumes what is available and sets the fail state, and
`seekg` on a stream whose failbit is set is a no-op (its sentry fails; C++11
clears only the eofbit).  `trie::assign` parses the container in place; the
model uses the default `doublearray5_traits` ("SDA5") reader. -/

/-- A little-endian unsigned 32-bit integer at offset `i` of a byte list
(reads past the end as 0; the source's memcpy there is out of bounds and
never exercised by the inputs below). -/
def u32le (b : List Byte) (i : Nat) : Nat :=
  b.getD i 0 + 256 * b.getD (i + 1) 0 + 65536 * b.getD (i + 2) 0 + 16777216 * b.getD (i + 3) 0

/-- An input stream: contents, position, fail state. -/
structure IStream where
  data : List Byte
  pos : Nat
  fail : Bool
deriving DecidableEq

/-- istream::read(n): on a good stream with enough bytes, extract them and
advance; with too few, extract what is there, stop at the end and set the
fail state; on a failed stream, nothing. -/
def isRead (s : IStream) (n : Nat) : List Byte × IStream :=
  if s.fail then ([], s)
  else if s.pos + n ≤ s.data.length then
    ((s.data.drop s.pos).take n, { s with pos := s.pos + n })
  else
    (s.data.drop s.pos, { s with pos := s.data.length, fail := true })

/-- istream::seekg: a no-op when the failbit is set. -/
def isSeekg (s : IStream) (off : Nat) : IStream :=
  if s.fail then s else { s with pos := off }

/-- Reader state for loading: `m_table` (identity at construction), and
`m_da`, `m_tail`, `m_n` as optional because unallocated or uninitialized
until `assign` touches them. -/
structure RTrie where
  table : List Byte
  da : Option (List Elem5)
  tl : Option (List Byte)
  n : Option Nat
deriving DecidableEq

/-- A freshly constructed trie: identity table, nothing loaded. -/
def rtrie0 : RTrie := ⟨List.range 256, none, none, none⟩

/-- The child-chunk loop of trie::assign: at `idx` read a chunk id and size,
handle TBLU / SDA5 / TAIL, skip unknown ids, and advance by the chunk's
size.  `datasize = size - CHUNKSIZE` with uint32 wraparound.  The source
loops forever when a chunk's size is 0; the model's fuel cuts that off. -/
def chunkLoop (block : List Byte) (total : Nat) : Nat → Nat → RTrie → RTrie
  | 0, _, t => t
  | fuel + 1, idx, t =>
    if idx < total then
      let id := (block.drop idx).take 4
      let size := u32le block (idx + 4)
      let datasize := (size + 2 ^ 32 - 8) % 2 ^ 32
      let t₁ :=
        if id = [84, 66, 76, 85] then
          if datasize = 256 then
            { t with table := (List.range 256).map (fun i => block.getD (idx + 8 + i) 0) }
          else t
        else if id = [83, 68, 65, 53] then
          { t with da := some ((List.range (datasize / 5)).map (fun k =>
              (⟨u32le block (idx + 8 + 5 * k), block.getD (idx + 8 + 5 * k + 4) 0⟩ : Elem5))) }
        else if id = [84, 65, 73, 76] then
          { t with tl := some ((List.range datasize).map (fun i => block.getD (idx + 8 + i) 0)) }
        else t
      chunkLoop block total fuel (idx + size) t₁
    else t

/-- trie::assign(block, size): reject a block below SDAT_CHUNKSIZE, a wrong
magic or a wrong SDAT header size; then record the declared record count in
`m_n`, run the chunk loop up to the declared total size, and fail (returning
0 but keeping all mutations) when the double array or the tail array was not
seen. -/
def rtAssign (t : RTrie) (block : List Byte) (size : Nat) : Nat × RTrie :=
  if size < 16 then (0, t)
  else
    let total := u32le block 4
    if block.take 4 ≠ [83, 68, 65, 84] then (0, t)
    else if u32le block 8 ≠ 16 then (0, t)
    else
      let t₁ := { t with n := some (u32le block 12) }
      let t₂ := chunkLoop block total (total + 1) 16 t₁
      if t₂.da.isNone || t₂.tl.isNone then (0, t₂) else (total, t₂)

/-- trie::read(is): remember the position, read the 8-byte header (on
failure, seek back — a no-op on the now-failed stream — and return 0), check
the SDAT magic, read the remaining `total_size - CHUNKSIZE` bytes (uint32
wraparound; on failure likewise), then `assign` the block and on a size
mismatch seek back and return 0, keeping whatever assign did to the trie. -/
def rtRead (t : RTrie) (s : IStream) : Nat × RTrie × IStream :=
  let offset := s.pos
  let r8 := isRead s 8
  if r8.2.fail then (0, t, isSeekg r8.2 offset)
  else
    let data8 := r8.1
    let total := u32le data8 4
    if data8.take 4 ≠ [83, 68, 65, 84] then (0, t, isSeekg r8.2 offset)
    else
      let need := (total + 2 ^ 32 - 8) % 2 ^ 32
      let rb := isRead r8.2 need
      if rb.2.fail then (0, t, isSeekg rb.2 offset)
      else
        let block := data8 ++ rb.1
        let ua := rtAssign t block total
        if ua.1 ≠ total then (0, ua.2, isSeekg rb.2 offset)
        else (ua.1, ua.2, rb.2)

/-- A stream whose SDAT header declares 100 bytes but which holds only 16. -/
def streamA : IStream :=
  ⟨[83, 68, 65, 84, 100, 0, 0, 0, 0, 0, 0, 0, 0, 0, 0, 0], 0, false⟩

/-- A well-formed 280-byte container consisting of the SDAT header (declared
total 280, record count 7) and one TBLU chunk (table of 256 zero bytes), with
no SDA5 and no TAIL chunk. -/
def blockB : List Byte :=
  [83, 68, 65, 84, 24, 1, 0, 0, 16, 0, 0, 0, 7, 0, 0, 0, 84, 66, 76, 85, 8, 1, 0, 0] ++
    List.replicate 256 0

/-- The stream holding exactly `blockB`. -/
def streamB : IStream := ⟨blockB, 0, false⟩

/-! ### Claim C8: width neutrality

A simulation between the builder instantiated at `da4` and at `da5`:
elements are related when they decode to the same BASE and CHECK, and every
operation of a successful 4-byte build preserves the relation (all BASE
values a successful 4-byte build writes lie in [-0x7FFFFF, 0x7FFFFF], where
both encodings are faithful).  The readers over related arrays then return
identical results. -/

/-- A 4-byte element and a 5-byte element are related when the 4-byte pattern
is a 32-bit value and both decode to the same BASE and CHECK. -/
def relE (e4 : Nat) (e5 : Elem5) : Prop :=
  e4 < 2 ^ 32 ∧ da4getBase e4 = toInt32 e5.baseBits ∧ da4getCheck e4 = e5.chk

/-- Builder states over the two traits are related when the double arrays
have equal length and pointwise related elements, and the tail, used-bases
and vacancy-list components are equal. -/
def relS (s4 : BState da4) (s5 : BState da5) : Prop :=
  s4.da.length = s5.da.length ∧
  (∀ i, relE (s4.da.getD i da4.dflt) (s5.da.getD i da5.dflt)) ∧
  s4.tl = s5.tl ∧ s4.usedBases = s5.usedBases ∧ s4.elink = s5.elink

/-- Simulation shape for the base search: whenever the 4-byte search
succeeds, the 5-byte search run on a related state succeeds with the same
base and a related state. -/
def relOutF (o4 : Except BErr (Nat × BState da4)) (o5 : Except BErr (Nat × BState da5)) : Prop :=
  ∀ b s4', o4 = .ok (b, s4') → ∃ s5', o5 = .ok (b, s5') ∧ relS s4' s5'

/-- Simulation shape for arrange outputs: a 4-byte success yields the same
base, a base within the 4-byte BASE range, and related states on the 5-byte
side. -/
def relOutA (o4 : Except BErr (Int × BState da4)) (o5 : Except BErr (Int × BState da5)) : Prop :=
  ∀ b s4', o4 = .ok (b, s4') →
    (-(0x7FFFFF : Int) ≤ b ∧ b ≤ 0x7FFFFF) ∧ ∃ s5', o5 = .ok (b, s5') ∧ relS s4' s5'

/-- Reader tries over the two element widths are related when the table, the
tail and the record count agree and the double arrays decode pointwise to the
same BASE and CHECK. -/
def relT (t4 : Trie da4) (t5 : Trie da5) : Prop :=
  t4.table = t5.table ∧ t4.da.length = t5.da.length ∧
  (∀ i, relE (t4.da.getD i da4.dflt) (t5.da.getD i da5.dflt)) ∧
  t4.tl = t5.tl ∧ t4.n = t5.n

/-- Result relation for one next_prefix call: equal outcomes, with the
returned tries related. -/
def npOutSim {V : Type} : NPOut da4 V → NPOut da5 V → Prop
  | .ret b4 p4 t4, .ret b5 p5 t5 => b4 = b5 ∧ p4 = p5 ∧ relT t4 t5
  | .corrupt, .corrupt => True
  | .fuelOut, .fuelOut => True
  | _, _ => False

/-- Build over `recs` with a given character table, then `in(key)`. -/
def inAfterBuild (T : DATraits) {V : Type} (codec : Codec V) (table : List Byte)
    (fuel : Nat) (recs : List (Record V)) (key : List Byte) : Option Bool :=
  match buildDA T codec.wr table fuel recs with
  | .error _ => none
  | .ok s => some (trieIn T (trieOfBuilder T s table) key).1

/-- Build over `recs` with a given character table, then the value slot of
`find(key)`. -/
def findValAfterBuild (T : DATraits) {V : Type} (codec : Codec V) (table : List Byte)
    (fuel : Nat) (recs : List (Record V)) (key : List Byte) : Option (Option V) :=
  match buildDA T codec.wr table fuel recs with
  | .error _ => none
  | .ok s => some (trieFind T codec (trieOfBuilder T s table) key).2.1

/-- Build over `recs` with a given character table, then the prefix cursor's
hits for query `q` over `steps` next() calls. -/
def enumAfterBuild (T : DATraits) {V : Type} (codec : Codec V) (table : List Byte)
    (fuel : Nat) (recs : List (Record V)) (steps : Nat) (q : List Byte) :
    Option (List (Nat × Option V)) :=
  match buildDA T codec.wr table fuel recs with
  | .error _ => none
  | .ok s => some (enumPfx T codec steps (trieOfBuilder T s table) (mkCursor q))

/-! ### Claim C9 -/

/-- C9: for the 4-byte element encoding, with 32-bit wraparound arithmetic,
`get_base (set_base e v) = v` for every base value in [-0x7FFFFF, 0x7FFFFF],
`get_check (set_base e v) = get_check e`, `get_check (set_check e k) = k`,
and `get_base (set_check e k) = get_base e`: BASE occupies the sign-extended
high 24 bits, CHECK the low 8 bits, and each setter leaves the other field
unchanged. -/
theorem da4_field_laws (e : Nat) (v : Int) (k : Nat)
    (he : e < 2 ^ 32) (hv₁ : -0x7FFFFF ≤ v) (hv₂ : v ≤ 0x7FFFFF) (hk : k < 256) :
    da4getBase (da4setBase e v) = v ∧
    da4getCheck (da4setBase e v) = da4getCheck e ∧
    da4getCheck (da4setCheck e k) = k ∧
    da4getBase (da4setCheck e k) = da4getBase e := by
  unfold da4getBase da4getCheck da4setBase da4setCheck asr8 toInt32
  refine ⟨?_, ?_, ?_, ?_⟩ <;> first | omega | (split_ifs <;> omega)

/-- C9 witness: the four field laws evaluated at the concrete element
0xDEADBEEF with base -5 and check byte 7. -/
theorem da4_field_laws_at_concrete :
    da4getBase (da4setBase 0xDEADBEEF (-5)) = -5 ∧
    da4getCheck (da4setBase 0xDEADBEEF (-5)) = da4getCheck 0xDEADBEEF ∧
    da4getCheck (da4setCheck 0xDEADBEEF 7) = 7 ∧
    da4getBase (da4setCheck 0xDEADBEEF 7) = da4getBase 0xDEADBEEF :=
  da4_field_laws 0xDEADBEEF (-5) 7 (by norm_num) (by norm_num) (by norm_num) (by norm_num)

/-! ### Claim C3 -/

/-- C3 (code bug): itail::match_string uses the strict bound
`m_offset + length < m_cont.size()`, so when the stored string's terminator is
the last byte of the tail array the function returns `false` even though the
stored null-terminated string equals the query.  Here the tail array is
[0, 97, 0], the read position 1 holds the string "a" whose terminator is the
final byte, and the query is "a". -/
theorem match_string_boundary_bug :
    ITail.matchString ⟨[0, 97, 0], 1⟩ [97] = false ∧
    ITail.cstr ⟨[0, 97, 0], 1⟩ = [97] := by
  decide

/-! ### Claim C10 -/

/-- ITail.seekg never changes the array contents. -/
theorem seekg_cont (t : ITail) (o : Nat) : (t.seekg o).cont = t.cont := by
  unfold ITail.seekg; split <;> rfl

/-- locate changes nothing of the trie except the tail read position. -/
theorem locate_frame (T : DATraits) (t : Trie T) (key : List Byte) :
    (locate T t key).2.table = t.table ∧ (locate T t key).2.da = t.da ∧
    (locate T t key).2.tl.cont = t.tl.cont ∧ (locate T t key).2.n = t.n := by
  unfold locate
  cases locLoop T t 1 key with
  | none => exact ⟨rfl, rfl, rfl, rfl⟩
  | some v =>
    simp only
    split <;> exact ⟨rfl, rfl, seekg_cont t.tl v.1, rfl⟩

/-- C10: a call to in(key) or find(key, value) changes no component of the
trie except the tail array's read position: the double-array contents, the
tail-array contents, the character table and the record count are unchanged,
and only the tail read cursor `m_offset` may move. -/
theorem lookup_frame (T : DATraits) {V : Type} (codec : Codec V) (t : Trie T) (key : List Byte) :
    ((trieIn T t key).2.table = t.table ∧ (trieIn T t key).2.da = t.da ∧
      (trieIn T t key).2.tl.cont = t.tl.cont ∧ (trieIn T t key).2.n = t.n) ∧
    ((trieFind T codec t key).2.2.table = t.table ∧
      (trieFind T codec t key).2.2.da = t.da ∧
      (trieFind T codec t key).2.2.tl.cont = t.tl.cont ∧
      (trieFind T codec t key).2.2.n = t.n) := by
  have h := locate_frame T t key
  constructor
  · exact h
  · simp only [trieFind]
    split
    · exact ⟨h.1, h.2.1, (seekg_cont _ _).trans h.2.2.1, h.2.2.2⟩
    · exact h

/-- Unfolding of `arrange` at fuel 0. -/
theorem arrange_zero (T : DATraits) {V : Type} (wr : V → List Byte) (table : List Byte)
    (p : Nat) (recs : List (Record V)) (s : BState T) :
    arrange T wr table 0 p recs s = .error .noFuel := rfl

/-- Unfolding of `arrange` at positive fuel. -/
theorem arrange_succ (T : DATraits) {V : Type} (wr : V → List Byte) (table : List Byte)
    (fuel : Nat) :
    arrange T wr table (fuel + 1) = arrangeGo T wr table fuel (arrange T wr table fuel) := rfl

set_option maxRecDepth 8192 in
/-- C1 (code bug): the round-trip fails.  For the sorted, unique, one-record
input with key "a" (and the empty value codec), build succeeds — the root
becomes a leaf with BASE = -1 — but find("a") returns false, because
trie::locate starts with `descend` from the root and `descend` rejects any
node with BASE ≤ 0.  The character table used is a valid build_table result
for this input (the build and lookup never consult it on this path). -/
theorem singleton_roundtrip_fails :
    (ordA.Perm (List.range 256) ∧ sortedByFreqB [(⟨[97], ()⟩ : Record Unit)] ordA = true) ∧
    findAfterBuild da5 emptyCodec (tableFromOrder ordA) 20 [⟨[97], ()⟩] [97] = some false := by
  refine ⟨⟨by decide, by decide⟩, by decide⟩

set_option maxRecDepth 8192 in
/-- C2 (code bug): for the trie built from the sorted, unique records "a","b"
with the empty value codec and the query "b", the stored key "b" is a prefix
of the query, yet the first `next()` call returns false: the leaf's stored
string ends at the last byte of the tail array and `match_string_partial`
requires `m_offset + length + 1 < m_cont.size()` (strictly).  The character
table is a valid build_table result for this input. -/
theorem pfx_misses_last_record :
    (ordB.Perm (List.range 256) ∧ sortedByFreqB recsAB ordB = true) ∧
    [98] ∈ recsAB.map Record.key ∧
    pfxFirstAfterBuild da5 emptyCodec (tableFromOrder ordB) 50 recsAB [98] = some false := by
  refine ⟨⟨by decide, by decide⟩, by decide, by decide⟩

set_option maxRecDepth 8192 in
/-- C6 counterexample: the claim says the table is the rank under strictly
decreasing frequency with ties broken by ascending byte value, uniquely
determined by the input.  But `std::sort` with `comp_freq` guarantees no tie
order: for the input with the single key "ab", the descending tie order
`ordX` also satisfies the sort's postcondition, and the table it produces
differs from the claimed one. -/
theorem build_table_tie_cex :
    buildTableRel recsC6 (tableFromOrder ordX) ∧
    tableFromOrder ordX ≠ claimedTable recsC6 := by
  exact ⟨⟨ordX, by decide, by decide, rfl⟩, by decide⟩

/-- Reading the claimed table at a byte below 256 gives that byte's index in
the order. -/
theorem tableFromOrder_getD (order : List Byte) (c : Byte) (hc : c < 256) :
    (tableFromOrder order).getD c 0 = order.indexOf c := by
  unfold tableFromOrder
  rw [List.getD_eq_getElem?_getD, List.getElem?_map, List.getElem?_range hc]
  rfl

/-- Mapping each element of a duplicate-free list to its index gives the
range of the length. -/
theorem map_indexOf_self (l : List Byte) (h : l.Nodup) :
    l.map (fun a => l.indexOf a) = List.range l.length := by
  apply List.ext_getElem (by simp)
  intro i h1 h2
  simp only [List.getElem_map, List.getElem_range]
  exact List.indexOf_getElem h i _

/-- A frequency-sorted order is pairwise non-increasing in frequency. -/
theorem sortedB_pairwise {V : Type} (recs : List (Record V)) :
    ∀ l : List Byte, sortedByFreqB recs l = true →
      l.Pairwise (fun a b => freqOf recs b ≤ freqOf recs a) := by
  intro l
  induction l with
  | nil => intro _; exact List.Pairwise.nil
  | cons a t ih =>
    cases t with
    | nil => intro _; simp
    | cons b rest =>
      intro h
      unfold sortedByFreqB at h
      rw [Bool.and_eq_true, decide_eq_true_eq] at h
      have hp := ih h.2
      refine List.Pairwise.cons ?_ hp
      intro y hy
      rcases List.mem_cons.1 hy with rfl | hy'
      · exact h.1
      · exact le_trans ((List.pairwise_cons.1 hp).1 y hy') h.1

/-- Positions in a frequency-sorted order respect frequency: an earlier
character's frequency is at least a later one's. -/
theorem indexOf_rank {V : Type} (recs : List (Record V)) (order : List Byte)
    (hs : sortedByFreqB recs order = true) (c d : Byte) (hc : c ∈ order) (hd : d ∈ order)
    (hlt : order.indexOf c < order.indexOf d) : freqOf recs d ≤ freqOf recs c := by
  have hp := sortedB_pairwise recs order hs
  have h1 : order.indexOf c < order.length := List.indexOf_lt_length.2 hc
  have h2 : order.indexOf d < order.length := List.indexOf_lt_length.2 hd
  have h3 := List.pairwise_iff_get.1 hp ⟨order.indexOf c, h1⟩ ⟨order.indexOf d, h2⟩ hlt
  rwa [List.indexOf_get, List.indexOf_get] at h3

/-- C6 amended: the frequency count is as the claim says (occurrences across
all keys plus one 0x00 per record; this is `freqOf` by definition), and every
possible build_table result is a permutation of 0..255 whose ranks are
non-increasing in frequency; but the tie order among equal-frequency bytes is
unspecified (std::sort is not stable), so the table is not uniquely
determined by the input. -/
theorem build_table_ranks {V : Type} (recs : List (Record V)) (table : List Byte)
    (h : buildTableRel recs table) :
    table.Perm (List.range 256) ∧
    (∀ c d : Byte, c < 256 → d < 256 → table.getD c 0 < table.getD d 0 →
      freqOf recs d ≤ freqOf recs c) := by
  obtain ⟨order, hperm, hsort, htab⟩ := h
  have hlen : order.length = 256 := by simpa using hperm.length_eq
  have hnd : order.Nodup := (hperm.nodup_iff).2 (List.nodup_range 256)
  subst htab
  constructor
  · have hmap : List.Perm ((List.range 256).map (fun a => order.indexOf a))
        (order.map (fun a => order.indexOf a)) := (hperm.symm).map _
    rw [map_indexOf_self order hnd, hlen] at hmap
    exact hmap
  · intro c d hc hd hlt
    have hcm : c ∈ order := (hperm.mem_iff).2 (List.mem_range.2 hc)
    have hdm : d ∈ order := (hperm.mem_iff).2 (List.mem_range.2 hd)
    rw [tableFromOrder_getD _ _ hc, tableFromOrder_getD _ _ hd] at hlt
    exact indexOf_rank recs order hsort c d hcm hdm hlt

set_option maxRecDepth 8192 in
/-- C6 amended, witness: the theorem applied to the concrete input with key
"ab" and the concrete sorted order `ordX`. -/
theorem build_table_ranks_at_concrete :
    (tableFromOrder ordX).Perm (List.range 256) ∧
    (∀ c d : Byte, c < 256 → d < 256 →
      (tableFromOrder ordX).getD c 0 < (tableFromOrder ordX).getD d 0 →
      freqOf recsC6 d ≤ freqOf recsC6 c) :=
  build_table_ranks recsC6 (tableFromOrder ordX) ⟨ordX, by decide, by decide, rfl⟩

/-- In a chain, consecutive members are related. -/
theorem chain_pair {α : Type} (R : α → α → Prop) :
    ∀ (xs : List α) (a b c : α) (ys : List α), List.Chain R a (xs ++ b :: c :: ys) → R b c := by
  intro xs
  induction xs with
  | nil =>
    intro a b c ys h
    rcases h with _ | ⟨_, h1⟩
    rcases h1 with _ | ⟨h2, _⟩
    exact h2
  | cons x xs' ih =>
    intro a b c ys h
    rcases h with _ | ⟨_, h1⟩
    exact ih x b c ys h1

/-- A chain survives dropping a prefix: it continues from any member. -/
theorem chain_drop {α : Type} (R : α → α → Prop) :
    ∀ (xs : List α) (a x : α) (rest : List α),
      List.Chain R a (xs ++ x :: rest) → List.Chain R x rest := by
  intro xs
  induction xs with
  | nil =>
    intro a x rest h
    rcases h with _ | ⟨_, h1⟩
    exact h1
  | cons y xs' ih =>
    intro a x rest h
    rcases h with _ | ⟨_, h1⟩
    exact ih y x rest h1

/-- In a non-decreasing chain from `b`, every member before `c` lies between
`b` and `c`. -/
theorem chain_le_between :
    ∀ (mid : List Nat) (b c : Nat) (cs : List Nat),
      List.Chain (fun a b => a ≤ b) b (mid ++ c :: cs) →
      b ≤ c ∧ ∀ y ∈ mid, b ≤ y ∧ y ≤ c := by
  intro mid
  induction mid with
  | nil =>
    intro b c cs h
    rcases h with _ | ⟨h1, _⟩
    exact ⟨h1, by simp⟩
  | cons y₀ mid' ih =>
    intro b c cs h
    rcases h with _ | ⟨h1, h2⟩
    obtain ⟨hyc, hall⟩ := ih y₀ c cs h2
    refine ⟨le_trans h1 hyc, ?_⟩
    intro y hy
    rcases List.mem_cons.1 hy with rfl | hy'
    · exact ⟨h1, hyc⟩
    · obtain ⟨h3, h4⟩ := hall y hy'
      exact ⟨le_trans h1 h3, h4⟩

/-- When the scan succeeds, the bytes at position `p` are non-decreasing
along the range (starting from the previous byte `pc`). -/
theorem scanRun_mono {V : Type} (p : Nat) :
    ∀ (rs : List (Record V)) (pc : Byte) (acc : List (Record V))
      (ch : List (Byte × List (Record V))), scanRun p pc acc rs = .ok ch →
      List.Chain (fun a b => a ≤ b) pc (rs.map (fun r => byteAt r.key p)) := by
  intro rs
  induction rs with
  | nil => intro pc acc ch _; exact List.Chain.nil
  | cons r rs' ih =>
    intro pc acc ch h
    rw [scanRun] at h
    split at h
    · rename_i hlt
      cases heq : scanRun p (byteAt r.key p) [r] rs' with
      | ok gs => exact List.Chain.cons (le_of_lt hlt) (ih _ _ _ heq)
      | error e => rw [heq] at h; exact absurd h (by simp)
    · split at h
      · exact absurd h (by simp)
      · rename_i h1 h2
        have hpc : pc = byteAt r.key p :=
          Nat.le_antisymm (Nat.le_of_not_lt h2) (Nat.le_of_not_lt h1)
        subst hpc
        exact List.Chain.cons le_rfl (ih _ _ _ h)

/-- When the scan succeeds, the groups are the maximal runs: the accumulator
closes into the current group and the rest is grouped by runs. -/
theorem scanRun_eq {V : Type} (p : Nat) :
    ∀ (rs : List (Record V)) (pc : Byte) (acc : List (Record V))
      (ch : List (Byte × List (Record V))), scanRun p pc acc rs = .ok ch →
      ch = (pc, acc.reverse ++ rs.takeWhile (fun r => byteAt r.key p == pc)) ::
        groupRuns p (rs.dropWhile (fun r => byteAt r.key p == pc)) := by
  intro rs
  induction rs with
  | nil =>
    intro pc acc ch h
    rw [scanRun] at h
    cases h
    simp [groupRuns]
  | cons r rs' ih =>
    intro pc acc ch h
    rw [scanRun] at h
    split at h
    · rename_i hlt
      cases heq : scanRun p (byteAt r.key p) [r] rs' with
      | ok gs =>
        rw [heq] at h
        cases h
        have hne : (byteAt r.key p == pc) = false :=
          beq_eq_false_iff_ne.2 (Nat.ne_of_gt hlt)
        rw [List.takeWhile_cons, List.dropWhile_cons, hne]
        simp only [Bool.false_eq_true, if_false, List.append_nil]
        rw [groupRuns]
        have hgs := ih _ _ _ heq
        simp only [List.reverse_cons, List.reverse_nil, List.nil_append] at hgs
        rw [hgs]
        simp
      | error e => rw [heq] at h; exact absurd h (by simp)
    · split at h
      · exact absurd h (by simp)
      · rename_i h1 h2
        have hpc : byteAt r.key p = pc :=
          Nat.le_antisymm (Nat.le_of_not_lt h1) (Nat.le_of_not_lt h2)
        have heq := ih _ _ _ h
        rw [List.takeWhile_cons, List.dropWhile_cons, hpc]
        simp only [beq_self_eq_true, if_true]
        rw [heq]
        simp [List.reverse_cons, List.append_assoc]

/-- When the whole grouping scan succeeds, the groups are exactly the maximal
runs of equal bytes. -/
theorem scanGroups_eq {V : Type} (p : Nat) (recs : List (Record V))
    (ch : List (Byte × List (Record V))) (h : scanGroups p recs = .ok ch) :
    ch = groupRuns p recs := by
  cases recs with
  | nil => rw [scanGroups] at h; cases h; rw [groupRuns]
  | cons r rs =>
    rw [scanGroups] at h
    have := scanRun_eq p rs (byteAt r.key p) [r] ch h
    rw [groupRuns]
    simpa using this

/-- When the whole grouping scan succeeds, consecutive records have
non-decreasing bytes at position `p`. -/
theorem scanGroups_mono {V : Type} (p : Nat) (recs : List (Record V))
    (ch : List (Byte × List (Record V))) (h : scanGroups p recs = .ok ch) :
    ∀ (l m : List (Record V)) (r₁ r₂ : Record V), recs = l ++ r₁ :: r₂ :: m →
      byteAt r₁.key p ≤ byteAt r₂.key p := by
  intro l m r₁ r₂ hdec
  cases recs with
  | nil => exact absurd hdec (by simp)
  | cons r rs =>
    rw [scanGroups] at h
    have hchain := scanRun_mono p rs (byteAt r.key p) [r] ch h
    cases l with
    | nil =>
      simp only [List.nil_append] at hdec
      injection hdec with hr hrs
      subst hr
      rw [hrs] at hchain
      simp only [List.map_cons] at hchain
      rcases hchain with _ | ⟨h1, _⟩
      exact h1
    | cons x l' =>
      injection hdec with h1 h2
      rw [h2] at hchain
      simp only [List.append_eq, List.map_append, List.map_cons] at hchain
      exact chain_pair _ _ _ _ _ _ hchain

/-- A contiguous segment of records that all carry the byte of its first
record lands, contiguous and in order, inside one group of `groupRuns`. -/
theorem groupRuns_seg {V : Type} (p : Nat) :
    ∀ (recs l mid m : List (Record V)) (r₁ r₂ : Record V),
      recs = l ++ r₁ :: (mid ++ r₂ :: m) →
      (∀ x ∈ mid, byteAt x.key p = byteAt r₁.key p) →
      byteAt r₂.key p = byteAt r₁.key p →
      ∃ (grp l' m' : List (Record V)), (byteAt r₁.key p, grp) ∈ groupRuns p recs ∧
        grp = l' ++ r₁ :: (mid ++ r₂ :: m') := by
  intro recs
  induction recs using groupRuns.induct p with
  | case1 =>
    intro l mid m r₁ r₂ hdec _ _
    exact absurd hdec (by simp)
  | case2 r rs ih =>
    intro l mid m r₁ r₂ hdec hmid hr2
    cases l with
    | nil =>
      simp only [List.nil_append] at hdec
      injection hdec with hr hrs
      subst hr
      have hall : ∀ x ∈ mid ++ [r₂], (byteAt x.key p == byteAt r.key p) = true := by
        intro x hx
        rcases List.mem_append.1 hx with hx' | hx'
        · exact beq_iff_eq.2 (hmid x hx')
        · rw [List.mem_singleton.1 hx']; exact beq_iff_eq.2 hr2
      have htW : rs.takeWhile (fun x => byteAt x.key p == byteAt r.key p) =
          mid ++ r₂ :: m.takeWhile (fun x => byteAt x.key p == byteAt r.key p) := by
        rw [hrs, show mid ++ r₂ :: m = (mid ++ [r₂]) ++ m by simp,
          List.takeWhile_append_of_pos hall]
        simp
      refine ⟨r :: (mid ++ r₂ :: m.takeWhile (fun x => byteAt x.key p == byteAt r.key p)),
        [], m.takeWhile (fun x => byteAt x.key p == byteAt r.key p), ?_, by simp⟩
      rw [groupRuns, htW]
      exact List.mem_cons_self _ _
    | cons x l'' =>
      injection hdec with hx hrs
      simp only [List.append_eq] at hrs
      by_cases hall : ∀ y ∈ l'', (byteAt y.key p == byteAt r.key p) = true
      · by_cases hr1 : (byteAt r₁.key p == byteAt r.key p) = true
        · have hallseg : ∀ y ∈ l'' ++ r₁ :: (mid ++ [r₂]),
              (byteAt y.key p == byteAt r.key p) = true := by
            intro y hy
            rcases List.mem_append.1 hy with hy' | hy'
            · exact hall y hy'
            · rcases List.mem_cons.1 hy' with rfl | hy''
              · exact hr1
              · rcases List.mem_append.1 hy'' with hy3 | hy3
                · rw [beq_iff_eq, hmid y hy3, ← beq_iff_eq]; exact hr1
                · rw [List.mem_singleton.1 hy3, beq_iff_eq, hr2, ← beq_iff_eq]; exact hr1
          have htW : rs.takeWhile (fun y => byteAt y.key p == byteAt r.key p) =
              l'' ++ r₁ :: (mid ++ r₂ ::
                m.takeWhile (fun y => byteAt y.key p == byteAt r.key p)) := by
            rw [hrs, show l'' ++ r₁ :: (mid ++ r₂ :: m) =
              (l'' ++ r₁ :: (mid ++ [r₂])) ++ m by simp,
              List.takeWhile_append_of_pos hallseg]
            simp
          refine ⟨r :: (l'' ++ r₁ :: (mid ++ r₂ ::
              m.takeWhile (fun y => byteAt y.key p == byteAt r.key p))),
            r :: l'', m.takeWhile (fun y => byteAt y.key p == byteAt r.key p), ?_, by simp⟩
          rw [groupRuns, htW, beq_iff_eq.1 hr1]
          exact List.mem_cons_self _ _
        · have hdw : rs.dropWhile (fun y => byteAt y.key p == byteAt r.key p) =
              r₁ :: (mid ++ r₂ :: m) := by
            rw [hrs, List.dropWhile_append_of_pos hall, List.dropWhile_cons, if_neg hr1]
          obtain ⟨grp, l', m', hmem, hshape⟩ :=
            ih [] mid m r₁ r₂ (by simpa using hdw) hmid hr2
          exact ⟨grp, l', m', by rw [groupRuns]; exact List.mem_cons_of_mem _ hmem, hshape⟩
      · have hne : ¬(l''.dropWhile (fun y => byteAt y.key p == byteAt r.key p)).isEmpty := by
          intro hcon
          exact hall (fun y hy => List.dropWhile_eq_nil_iff.1
            (List.isEmpty_iff.1 hcon) y hy)
        have hdw : rs.dropWhile (fun y => byteAt y.key p == byteAt r.key p) =
            (l''.dropWhile (fun y => byteAt y.key p == byteAt r.key p)) ++
              r₁ :: (mid ++ r₂ :: m) := by
          rw [hrs, List.dropWhile_append]
          simp only [Bool.not_eq_true] at hne
          rw [if_neg (by simp_all)]
        obtain ⟨grp, l', m', hmem, hshape⟩ := ih
          (l''.dropWhile (fun y => byteAt y.key p == byteAt r.key p)) mid m r₁ r₂
          hdw hmid hr2
        exact ⟨grp, l', m', by rw [groupRuns]; exact List.mem_cons_of_mem _ hmem, hshape⟩

/-- When the grouping scan succeeds and two records of the range carry the
same byte at `p`, every record between them carries it too. -/
theorem scanGroups_between {V : Type} (p : Nat) (recs : List (Record V))
    (ch : List (Byte × List (Record V))) (h : scanGroups p recs = .ok ch) :
    ∀ (l mid m : List (Record V)) (a b : Record V), recs = l ++ a :: (mid ++ b :: m) →
      byteAt a.key p = byteAt b.key p → ∀ y ∈ mid, byteAt y.key p = byteAt a.key p := by
  intro l mid m a b hdec hab y hy
  cases recs with
  | nil => exact absurd hdec (by simp)
  | cons r₀ rs =>
    rw [scanGroups] at h
    have hchain := scanRun_mono p rs (byteAt r₀.key p) [r₀] ch h
    have hyk : byteAt y.key p ∈ mid.map (fun x => byteAt x.key p) :=
      List.mem_map.2 ⟨y, hy, rfl⟩
    cases l with
    | nil =>
      simp only [List.nil_append] at hdec
      injection hdec with hr hrs
      subst hr
      rw [hrs] at hchain
      simp only [List.map_append, List.map_cons] at hchain
      obtain ⟨_, hall⟩ := chain_le_between _ _ _ _ hchain
      obtain ⟨h1, h2⟩ := hall _ hyk
      omega
    | cons x l' =>
      injection hdec with hx hrs
      simp only [List.append_eq] at hrs
      rw [hrs] at hchain
      simp only [List.map_append, List.map_cons] at hchain
      have hchain' := chain_drop _ _ _ _ _ hchain
      obtain ⟨_, hall⟩ := chain_le_between _ _ _ _ hchain'
      obtain ⟨h1, h2⟩ := hall _ hyk
      omega

/-- If some child of the list must fail — a terminator child owning more than
one record, or a non-terminator child on whose group the recursive call never
succeeds — then the child loop never succeeds. -/
theorem arrangeKids_not_ok (T : DATraits) {V : Type}
    (arr : Nat → List (Record V) → BState T → Except BErr (Int × BState T))
    (table : List Byte) (p base : Nat) :
    ∀ (children : List (Byte × List (Record V))) (s : BState T),
      (∃ (c : Byte) (grp : List (Record V)), (c, grp) ∈ children ∧
        ((c = 0 ∧ grp.length ≠ 1) ∨
          (c ≠ 0 ∧ ∀ (s' : BState T) (r : Int × BState T), arr (p + 1) grp s' ≠ .ok r))) →
      ∀ (r' : BState T), arrangeKids T arr table p base children s ≠ .ok r' := by
  intro children
  induction children with
  | nil =>
    intro s h r' _
    obtain ⟨c, grp, hmem, _⟩ := h
    exact absurd hmem (List.not_mem_nil _)
  | cons cg rest ih =>
    intro s h r' hok
    obtain ⟨c₀, g₀⟩ := cg
    obtain ⟨c, grp, hmem, hbad⟩ := h
    rw [arrangeKids] at hok
    split at hok
    · rename_i hc0
      cases harr : arr (p + 1) g₀ s with
      | error e => rw [harr] at hok; exact absurd hok (by simp)
      | ok bs =>
        rw [harr] at hok
        rcases List.mem_cons.1 hmem with heq | htail
        · injection heq with h1 h2
          subst h1; subst h2
          rcases hbad with ⟨hc, _⟩ | ⟨_, hfail⟩
          · exact hc0 hc
          · exact hfail s bs harr
        · exact ih _ ⟨c, grp, htail, hbad⟩ r' hok
    · rename_i hc0
      split at hok
      · exact absurd hok (by simp)
      · rename_i hlen
        cases harr : arr p g₀ s with
        | error e => rw [harr] at hok; exact absurd hok (by simp)
        | ok bs =>
          rw [harr] at hok
          rcases List.mem_cons.1 hmem with heq | htail
          · injection heq with h1 h2
            subst h1; subst h2
            rcases hbad with ⟨_, hl⟩ | ⟨hc, _⟩
            · exact hl (by simpa using hlen)
            · exact hc (by simpa using hc0)
          · exact ih _ ⟨c, grp, htail, hbad⟩ r' hok

/-- When a record range contains, from position `p` on, a consecutive pair in
non-ascending order at the branching character or a duplicated pair of keys,
`arrange` never succeeds on it: it throws (or runs out of fuel). -/
theorem arrange_bad_not_ok (T : DATraits) {V : Type} (wr : V → List Byte)
    (table : List Byte) :
    ∀ (fuel p : Nat) (recs : List (Record V)) (s : BState T),
      (hasDescentPair p recs ∨ hasDupPair p recs) →
      ∀ (r : Int × BState T), arrange T wr table fuel p recs s ≠ .ok r := by
  intro fuel
  induction fuel with
  | zero =>
    intro p recs s _ r h
    rw [arrange_zero] at h
    exact absurd h (by simp)
  | succ fuel ih =>
    intro p recs s hbad r hok
    rw [arrange_succ] at hok
    have hlen2 : 2 ≤ recs.length := by
      rcases hbad with ⟨l, m, a, b, hdec, _⟩ | ⟨l, mid, m, a, b, hdec, _⟩ <;>
        (have hlen := congrArg List.length hdec; simp at hlen; omega)
    match recs, hlen2 with
    | r₀ :: rr :: rest, _ =>
    simp only [arrangeGo] at hok
    split at hok
    · simp at hok
    · rename_i children hscan
      split at hok
      · simp at hok
      · rename_i off0 offsRest hoffs
        split at hok
        · simp at hok
        · rename_i base s₁ hfb
          split at hok
          · simp at hok
          · split at hok
            · simp at hok
            · rename_i s₄ hak
              refine arrangeKids_not_ok T (arrange T wr table fuel) table p base
                children _ ?_ s₄ hak
              rcases hbad with ⟨l, m, a, b, hdec, q, hpq, hagree, hlt⟩ |
                ⟨l, mid, m, a, b, hdec, q, hpq, hzero, hagree⟩
              · rcases Nat.eq_or_lt_of_le hpq with hq | hq
                · exact absurd (scanGroups_mono p _ _ hscan l m a b hdec)
                    (by rw [← hq] at hlt; omega)
                · have hpeq : byteAt a.key p = byteAt b.key p := hagree p le_rfl hq
                  obtain ⟨grp, l', m', hmem, hshape⟩ := groupRuns_seg p _ l [] m a b
                    (by simpa using hdec) (by simp) hpeq.symm
                  rw [← scanGroups_eq p _ _ hscan] at hmem
                  refine ⟨byteAt a.key p, grp, hmem, ?_⟩
                  by_cases hc : byteAt a.key p = 0
                  · exact Or.inl ⟨hc, by rw [hshape]; simp; omega⟩
                  · refine Or.inr ⟨hc, ?_⟩
                    intro s' r₂
                    exact ih (p + 1) grp s' (Or.inl ⟨l', m', a, b, by simpa using hshape,
                      q, by omega, fun j hj1 hj2 => hagree j (by omega) hj2, hlt⟩) r₂
              · have hpeq : byteAt a.key p = byteAt b.key p := hagree p le_rfl hpq
                have hmidbytes := scanGroups_between p _ _ hscan l mid m a b hdec hpeq
                obtain ⟨grp, l', m', hmem, hshape⟩ := groupRuns_seg p _ l mid m a b
                  hdec hmidbytes hpeq.symm
                rw [← scanGroups_eq p _ _ hscan] at hmem
                refine ⟨byteAt a.key p, grp, hmem, ?_⟩
                by_cases hc : byteAt a.key p = 0
                · exact Or.inl ⟨hc, by rw [hshape]; simp; omega⟩
                · refine Or.inr ⟨hc, ?_⟩
                  intro s' r₂
                  have hq1 : p + 1 ≤ q := by
                    rcases Nat.eq_or_lt_of_le hpq with hq | hq
                    · exact absurd (hq ▸ hzero) hc
                    · omega
                  exact ih (p + 1) grp s' (Or.inr ⟨l', mid, m', a, b, hshape,
                    q, hq1, hzero, fun j hj1 hj2 => hagree j (by omega) hj2⟩) r₂

/-- C4 amended: on an input with two consecutive records in non-ascending
order at the branching character, build never succeeds — it signals
UnsortedInput, or another builder error (such as DuplicateKey) encountered
earlier in the depth-first traversal, and emits no built trie (in the model
it may also run out of fuel). -/
theorem build_descent_never_ok (T : DATraits) {V : Type} (wr : V → List Byte)
    (table : List Byte) (fuel : Nat) (recs : List (Record V))
    (h : hasDescentPair 0 recs) : exOk (buildDA T wr table fuel recs) = false := by
  simp only [buildDA]
  split
  · rfl
  · rename_i b s₅ heq
    exact absurd heq (arrange_bad_not_ok T wr table fuel 0 recs _ (Or.inl h) (b, s₅))

/-- C4 amended, witness: the two-record input "b", "a" has a consecutive
descent at position 0 and its build fails. -/
theorem build_descent_never_ok_at_concrete :
    hasDescentPair 0 [(⟨[98], ()⟩ : Record Unit), ⟨[97], ()⟩] ∧
    exOk (buildDA da5 (fun _ : Unit => []) (List.range 256) 30
      [(⟨[98], ()⟩ : Record Unit), ⟨[97], ()⟩]) = false := by
  have hd : hasDescentPair 0 [(⟨[98], ()⟩ : Record Unit), ⟨[97], ()⟩] :=
    ⟨[], [], ⟨[98], ()⟩, ⟨[97], ()⟩, rfl, 0, Nat.le_refl 0,
      fun j _ h2 => absurd h2 (by omega), by decide⟩
  exact ⟨hd, build_descent_never_ok da5 (fun _ : Unit => []) (List.range 256) 30 _ hd⟩

/-- C5 amended: on an input containing two records with byte-identical keys,
build never succeeds — it signals DuplicateKey when the terminator group with
more than one record is reached, or another builder error (such as
UnsortedInput) encountered earlier, and emits no built trie (in the model it
may also run out of fuel). -/
theorem build_dup_never_ok (T : DATraits) {V : Type} (wr : V → List Byte)
    (table : List Byte) (fuel : Nat) (recs : List (Record V))
    (h : ∃ (l mid m : List (Record V)) (r₁ r₂ : Record V),
      recs = l ++ r₁ :: (mid ++ r₂ :: m) ∧ r₁.key = r₂.key) :
    exOk (buildDA T wr table fuel recs) = false := by
  obtain ⟨l, mid, m, r₁, r₂, hdec, hkey⟩ := h
  have hdup : hasDupPair 0 recs := by
    refine ⟨l, mid, m, r₁, r₂, hdec, r₁.key.length, Nat.zero_le _, ?_, ?_⟩
    · exact List.getD_eq_default _ _ (Nat.le_refl _)
    · intro j _ _
      rw [byteAt, byteAt, hkey]
  simp only [buildDA]
  split
  · rfl
  · rename_i b s₅ heq
    exact absurd heq (arrange_bad_not_ok T wr table fuel 0 recs _ (Or.inr hdup) (b, s₅))

/-- C5 amended, witness: the input "x", "x" has byte-identical keys and its
build fails. -/
theorem build_dup_never_ok_at_concrete :
    ((⟨[120], ()⟩ : Record Unit).key = (⟨[120], ()⟩ : Record Unit).key) ∧
    exOk (buildDA da5 (fun _ : Unit => []) (List.range 256) 30
      [(⟨[120], ()⟩ : Record Unit), ⟨[120], ()⟩]) = false :=
  ⟨rfl, build_dup_never_ok da5 (fun _ : Unit => []) (List.range 256) 30 _
    ⟨[], [], [], ⟨[120], ()⟩, ⟨[120], ()⟩, rfl, rfl⟩⟩

set_option maxRecDepth 8192 in
/-- C4 counterexample: the claim says the builder signals UnsortedInput on
such an input.  But the depth-first child recursion reaches the duplicate
"a", "a" before scanning position 1 of the "b" group, so the build signals
DuplicateKey, not UnsortedInput.  The character table used is a valid
build_table result for this input. -/
theorem build_descent_wrong_error_cex :
    hasDescentPair 0 recs4 ∧
    (ord4.Perm (List.range 256) ∧ sortedByFreqB recs4 ord4 = true) ∧
    buildErr da5 (fun _ : Unit => []) (tableFromOrder ord4) 100 recs4 =
      some BErr.duplicate := by
  refine ⟨?_, ⟨by decide, by decide⟩, by decide⟩
  refine ⟨[⟨[97], ()⟩, ⟨[97], ()⟩], [], ⟨[98, 99], ()⟩, ⟨[98, 98], ()⟩, rfl, 1, by omega,
    ?_, by decide⟩
  intro j _ h2
  have hj : j = 0 := by omega
  subst hj
  rfl

set_option maxRecDepth 8192 in
/-- C5 counterexample: the claim says the builder signals DuplicateKey on
every input containing two byte-identical records.  But the grouping scan of
position 0 sees the descent "b" then "a" first and throws UnsortedInput, not
DuplicateKey.  The character table used is a valid build_table result for
this input. -/
theorem build_dup_wrong_error_cex :
    (∃ (l mid m : List (Record Unit)) (r₁ r₂ : Record Unit),
      recs5 = l ++ r₁ :: (mid ++ r₂ :: m) ∧ r₁.key = r₂.key) ∧
    (ord5.Perm (List.range 256) ∧ sortedByFreqB recs5 ord5 = true) ∧
    buildErr da5 (fun _ : Unit => []) (tableFromOrder ord5) 100 recs5 =
      some BErr.unsorted := by
  exact ⟨⟨[⟨[98], ()⟩], [], [], ⟨[97], ()⟩, ⟨[97], ()⟩, rfl, rfl⟩,
    ⟨by decide, by decide⟩, by decide⟩

set_option maxRecDepth 8192 in
/-- C7 (code bug): two failing loads violate the claim.  On `streamA` (body
truncated below the declared size) read returns 0 but the stream is left
failed at position 16, not restored to 0: after the failed `is.read` the
failbit is set and `is.seekg(offset)` is a no-op.  On `streamB` (valid SDAT
and TBLU but no SDA5/TAIL chunk) read returns 0 and the stream is restored,
but the trie is left observably populated: `assign` has already stored the
record count 7 in `m_n` and overwritten the character table before failing. -/
theorem trie_read_failure_state_bug :
    ((rtRead rtrie0 streamA).1 = 0 ∧ (rtRead rtrie0 streamA).2.2.fail = true ∧
      (rtRead rtrie0 streamA).2.2.pos = 16 ∧ streamA.pos = 0) ∧
    ((rtRead rtrie0 streamB).1 = 0 ∧ (rtRead rtrie0 streamB).2.2.pos = streamB.pos ∧
      (rtRead rtrie0 streamB).2.1.n = some 7 ∧
      (rtRead rtrie0 streamB).2.1.table ≠ rtrie0.table) := by
  decide

/-- The default elements decode equally. -/
theorem relE_dflt : relE da4.dflt da5.dflt := by
  refine ⟨by decide, ?_, by decide⟩
  show da4getBase 0 = toInt32 0
  decide

/-- Reading a defaulted entry back at the written index. -/
theorem getD_set_self {α : Type} (l : List α) (i : Nat) (v d : α) :
    (l.set i v).getD i d = if i < l.length then v else d := by
  rcases Nat.lt_or_ge i l.length with h | h
  · rw [if_pos h, List.getD_eq_getElem?_getD, List.getElem?_set_self (by omega)]
    rfl
  · rw [if_neg (by omega), List.getD_eq_default _ _ (by simpa using h)]

/-- Reading a defaulted entry at another index. -/
theorem getD_set_ne {α : Type} (l : List α) (i j : Nat) (v d : α) (h : j ≠ i) :
    (l.set i v).getD j d = l.getD j d := by
  rw [List.getD_eq_getElem?_getD, List.getD_eq_getElem?_getD,
    List.getElem?_set_ne (by omega)]

/-- set_base writes a BASE in [-0x7FFFFF, 0x7FFFFF] faithfully in both
encodings and leaves CHECK alone. -/
theorem relE_setBase (e4 : Nat) (e5 : Elem5) (v : Int) (h : relE e4 e5)
    (h1 : -(0x7FFFFF : Int) ≤ v) (h2 : v ≤ 0x7FFFFF) :
    relE (da4.setBase e4 v) (da5.setBase e5 v) := by
  obtain ⟨hlt, _, hchk⟩ := h
  show relE (da4setBase e4 v) ⟨(v % (2 ^ 32 : Int)).toNat, e5.chk⟩
  refine ⟨?_, ?_, ?_⟩
  · unfold da4setBase; omega
  · show da4getBase (da4setBase e4 v) = toInt32 (v % (2 ^ 32 : Int)).toNat
    unfold da4getBase da4setBase asr8 toInt32
    split_ifs <;> omega
  · show da4getCheck (da4setBase e4 v) = e5.chk
    rw [← hchk]
    unfold da4getCheck da4setBase
    omega

/-- set_check writes a CHECK below 256 faithfully in both encodings and
leaves BASE alone. -/
theorem relE_setCheck (e4 : Nat) (e5 : Elem5) (k : Nat) (h : relE e4 e5)
    (hk : k < 256) : relE (da4.setCheck e4 k) (da5.setCheck e5 k) := by
  obtain ⟨hlt, hbase, _⟩ := h
  show relE (da4setCheck e4 k) ⟨e5.baseBits, k⟩
  refine ⟨?_, ?_, ?_⟩
  · unfold da4setCheck; omega
  · show da4getBase (da4setCheck e4 k) = toInt32 e5.baseBits
    rw [← hbase]
    unfold da4getBase da4setCheck asr8 toInt32
    split_ifs <;> omega
  · show da4getCheck (da4setCheck e4 k) = k
    unfold da4getCheck da4setCheck
    omega

/-- Related elements decode to equal BASE values. -/
theorem relE_base_eq (e4 : Nat) (e5 : Elem5) (h : relE e4 e5) :
    da4.getBase e4 = da5.getBase e5 := h.2.1

/-- Related elements decode to equal CHECK values. -/
theorem relE_check_eq (e4 : Nat) (e5 : Elem5) (h : relE e4 e5) :
    da4.getCheck e4 = da5.getCheck e5 := h.2.2

/-- da_expand preserves the state relation. -/
theorem relS_daExpand (s4 : BState da4) (s5 : BState da5) (h : relS s4 s5) (size : Nat) :
    relS (daExpand da4 s4 size) (daExpand da5 s5 size) := by
  obtain ⟨hlen, hel, htl, hub, helink⟩ := h
  unfold daExpand
  rw [hlen]
  split
  · refine ⟨by simp [hlen], ?_, htl, hub, helink⟩
    intro i
    rcases Nat.lt_or_ge i s4.da.length with hi | hi
    · rw [List.getD_eq_getElem?_getD, List.getD_eq_getElem?_getD,
        List.getElem?_append_left hi, List.getElem?_append_left (hlen ▸ hi),
        ← List.getD_eq_getElem?_getD, ← List.getD_eq_getElem?_getD]
      exact hel i
    · rcases Nat.lt_or_ge i size with hi2 | hi2
      · rw [List.getD_eq_getElem?_getD, List.getD_eq_getElem?_getD,
          List.getElem?_append_right hi, List.getElem?_append_right (hlen ▸ hi)]
        rw [List.getElem?_replicate, List.getElem?_replicate, hlen]
        split <;> simp [relE_dflt]
      · rw [List.getD_eq_default, List.getD_eq_default]
        · exact relE_dflt
        · simp; omega
        · simp; omega
  · exact ⟨hlen, hel, htl, hub, helink⟩

/-- set_base at an index preserves the state relation when the value lies in
the 4-byte range. -/
theorem relS_setBase (s4 : BState da4) (s5 : BState da5) (h : relS s4 s5)
    (i : Nat) (v : Int) (h1 : -(0x7FFFFF : Int) ≤ v) (h2 : v ≤ 0x7FFFFF) :
    relS (bsSetBase da4 s4 i v) (bsSetBase da5 s5 i v) := by
  obtain ⟨hlen, hel, htl, hub, helink⟩ := h
  refine ⟨by simp [bsSetBase, hlen], ?_, htl, hub, helink⟩
  intro j
  simp only [bsSetBase]
  rcases eq_or_ne j i with rfl | hne
  · rw [getD_set_self, getD_set_self, ← hlen]
    split
    · exact relE_setBase _ _ v (hel j) h1 h2
    · exact relE_dflt
  · rw [getD_set_ne _ _ _ _ _ hne, getD_set_ne _ _ _ _ _ hne]
    exact hel j

/-- set_check at an index preserves the state relation when the value is
below 256. -/
theorem relS_setCheck (s4 : BState da4) (s5 : BState da5) (h : relS s4 s5)
    (i k : Nat) (hk : k < 256) :
    relS (bsSetCheck da4 s4 i k) (bsSetCheck da5 s5 i k) := by
  obtain ⟨hlen, hel, htl, hub, helink⟩ := h
  refine ⟨by simp [bsSetCheck, hlen], ?_, htl, hub, helink⟩
  intro j
  simp only [bsSetCheck]
  rcases eq_or_ne j i with rfl | hne
  · rw [getD_set_self, getD_set_self, ← hlen]
    split
    · exact relE_setCheck _ _ k (hel j) hk
    · exact relE_dflt
  · rw [getD_set_ne _ _ _ _ _ hne, getD_set_ne _ _ _ _ _ hne]
    exact hel j

/-- da_in_use decides equally on related states. -/
theorem relS_daInUse (s4 : BState da4) (s5 : BState da5) (h : relS s4 s5) (i : Nat) :
    daInUse da4 s4 i = daInUse da5 s5 i := by
  unfold daInUse
  rw [h.1, relE_base_eq _ _ (h.2.1 i)]

/-- Expanding the double array and the vacancy list together preserves the
state relation. -/
theorem relS_expandStep (s4 : BState da4) (s5 : BState da5) (h : relS s4 s5) (n : Nat) :
    relS { daExpand da4 s4 n with elink := vlExpand (daExpand da4 s4 n).elink n }
      { daExpand da5 s5 n with elink := vlExpand (daExpand da5 s5 n).elink n } := by
  have h₁ := relS_daExpand s4 s5 h n
  exact ⟨h₁.1, h₁.2.1, h₁.2.2.1, h₁.2.2.2.1, by rw [h₁.2.2.2.2]⟩

/-- Related states agree on the vacancy check over any list of offsets. -/
theorem all_daInUse_eq (s4 : BState da4) (s5 : BState da5) (h : relS s4 s5)
    (B : Nat) (offs : List Nat) :
    offs.all (fun off => !daInUse da4 s4 (B + off)) =
      offs.all (fun off => !daInUse da5 s5 (B + off)) := by
  have hf : (fun off => !daInUse da4 s4 (B + off)) =
      (fun off => !daInUse da5 s5 (B + off)) :=
    funext fun off => by rw [relS_daInUse _ _ h]
  rw [hf]

/-- The base search simulates: related states give the same found base and
related result states. -/
theorem findBase_sim (off0 maxOff : Nat) (offs : List Nat) :
    ∀ (fuel : Nat) (s4 : BState da4) (s5 : BState da5) (idx : Nat), relS s4 s5 →
      relOutF (findBase da4 off0 maxOff offs fuel s4 idx)
        (findBase da5 off0 maxOff offs fuel s5 idx) := by
  intro fuel
  induction fuel with
  | zero =>
    intro s4 s5 idx h b s4' hok
    simp only [findBase] at hok
    exact Except.noConfusion hok
  | succ fuel ih =>
    intro s4 s5 idx hrel b s4' hok
    obtain ⟨hlen, hel, htl, hub, helink⟩ := hrel
    simp only [findBase] at hok
    rw [helink, hub] at hok
    split at hok
    · rename_i h1
      obtain ⟨s5', h5, hr⟩ := ih s4 s5 (vlNext s5.elink idx)
        ⟨hlen, hel, htl, hub, helink⟩ b s4' hok
      refine ⟨s5', ?_, hr⟩
      simp only [findBase]
      rw [if_pos h1]
      exact h5
    · rename_i h1
      split at hok
      · rename_i h2
        obtain ⟨s5', h5, hr⟩ := ih s4 s5 (vlNext s5.elink idx)
          ⟨hlen, hel, htl, hub, helink⟩ b s4' hok
        refine ⟨s5', ?_, hr⟩
        simp only [findBase]
        rw [if_neg h1, if_pos h2]
        exact h5
      · rename_i h2
        have hrel₂ := relS_expandStep s4 s5 ⟨hlen, hel, htl, hub, helink⟩
          (vlNext s5.elink idx - off0 + maxOff + 1)
        split at hok
        · rename_i h3
          rw [all_daInUse_eq _ _ hrel₂] at h3
          injection hok with h'
          injection h' with hb hs
          subst hb
          subst hs
          refine ⟨_, ?_, hrel₂⟩
          simp only [findBase]
          rw [if_neg h1, if_neg h2, if_pos h3]
        · rename_i h3
          rw [all_daInUse_eq _ _ hrel₂] at h3
          obtain ⟨s5', h5, hr⟩ := ih _ _ (vlNext s5.elink idx) hrel₂ b s4' hok
          refine ⟨s5', ?_, hr⟩
          simp only [findBase]
          rw [if_neg h1, if_neg h2, if_neg h3]
          exact h5

/-- ubRegister leaves the double array alone. -/
theorem ubRegister_da (T : DATraits) (s : BState T) (base : Nat) :
    (ubRegister T s base).da = s.da := by
  simp only [ubRegister]
  split <;> rfl

/-- ubRegister leaves the tail alone. -/
theorem ubRegister_tl (T : DATraits) (s : BState T) (base : Nat) :
    (ubRegister T s base).tl = s.tl := by
  simp only [ubRegister]
  split <;> rfl

/-- ubRegister leaves the vacancy list alone. -/
theorem ubRegister_elink (T : DATraits) (s : BState T) (base : Nat) :
    (ubRegister T s base).elink = s.elink := by
  simp only [ubRegister]
  split <;> rfl

/-- The used-bases vector after ubRegister, as a pure function of the old
vector. -/
theorem ubRegister_ub (T : DATraits) (s : BState T) (base : Nat) :
    (ubRegister T s base).usedBases = List.set
      (if s.usedBases.length ≤ base then
        s.usedBases ++ List.replicate (base + 1 - s.usedBases.length) false
      else s.usedBases) base true := by
  simp only [ubRegister]
  split <;> rfl

/-- Registering a used base preserves the state relation. -/
theorem relS_ubRegister (s4 : BState da4) (s5 : BState da5) (h : relS s4 s5)
    (base : Nat) : relS (ubRegister da4 s4 base) (ubRegister da5 s5 base) := by
  obtain ⟨hlen, hel, htl, hub, helink⟩ := h
  refine ⟨?_, ?_, ?_, ?_, ?_⟩
  · rw [ubRegister_da, ubRegister_da]
    exact hlen
  · intro i
    rw [ubRegister_da, ubRegister_da]
    exact hel i
  · rw [ubRegister_tl, ubRegister_tl]
    exact htl
  · rw [ubRegister_ub, ubRegister_ub, hub]
  · rw [ubRegister_elink, ubRegister_elink]
    exact helink

/-- Reserving the child slots preserves the state relation. -/
theorem relS_reserveKids (base : Nat) (offs : List Nat) :
    ∀ (s4 : BState da4) (s5 : BState da5), relS s4 s5 →
      relS (reserveKids da4 base offs s4) (reserveKids da5 base offs s5) := by
  induction offs with
  | nil => intro s4 s5 h; exact h
  | cons a rest ih =>
    intro s4 s5 h
    simp only [reserveKids]
    apply ih
    have h₁ := relS_setBase s4 s5 h (base + a) 1 (by norm_num) (by norm_num)
    exact ⟨h₁.1, h₁.2.1, h₁.2.2.1, h₁.2.2.2.1, by rw [h₁.2.2.2.2]⟩

/-- The child loop simulates, given that the recursive calls simulate and
every table entry is a byte. -/
theorem arrangeKids_sim {V : Type}
    (table : List Byte) (htab : ∀ c, table.getD c 0 < 256)
    (arr4 : Nat → List (Record V) → BState da4 → Except BErr (Int × BState da4))
    (arr5 : Nat → List (Record V) → BState da5 → Except BErr (Int × BState da5))
    (harr : ∀ (q : Nat) (recs : List (Record V)) (t4 : BState da4) (t5 : BState da5),
      relS t4 t5 → relOutA (arr4 q recs t4) (arr5 q recs t5))
    (p base : Nat) :
    ∀ (children : List (Byte × List (Record V))) (s4 : BState da4) (s5 : BState da5),
      relS s4 s5 → ∀ s4', arrangeKids da4 arr4 table p base children s4 = .ok s4' →
        ∃ s5', arrangeKids da5 arr5 table p base children s5 = .ok s5' ∧ relS s4' s5' := by
  intro children
  induction children with
  | nil =>
    intro s4 s5 h s4' hok
    simp only [arrangeKids] at hok
    injection hok with hs
    subst hs
    exact ⟨s5, rfl, h⟩
  | cons hd rest ih =>
    obtain ⟨c, grp⟩ := hd
    intro s4 s5 h s4' hok
    simp only [arrangeKids] at hok
    split at hok
    · rename_i hc
      split at hok
      · exact Except.noConfusion hok
      · rename_i b s₁4 heq
        obtain ⟨⟨hb1, hb2⟩, s₁5, heq5, hrel1⟩ := harr (p + 1) grp s4 s5 h b s₁4 heq
        have hoff : table.getD c 0 + 1 - 1 < 256 := by
          rw [Nat.add_sub_cancel]
          exact htab c
        have hrel2 := relS_setBase s₁4 s₁5 hrel1 (base + (table.getD c 0 + 1)) b hb1 hb2
        have hrel3 := relS_setCheck _ _ hrel2 (base + (table.getD c 0 + 1))
          (table.getD c 0 + 1 - 1) hoff
        obtain ⟨s5', h5, hr⟩ := ih _ _ hrel3 s4' hok
        refine ⟨s5', ?_, hr⟩
        simp only [arrangeKids]
        rw [if_pos hc, heq5]
        exact h5
    · rename_i hc
      split at hok
      · exact Except.noConfusion hok
      · rename_i hone
        split at hok
        · exact Except.noConfusion hok
        · rename_i b s₁4 heq
          obtain ⟨⟨hb1, hb2⟩, s₁5, heq5, hrel1⟩ := harr p grp s4 s5 h b s₁4 heq
          have hoff : table.getD c 0 + 1 - 1 < 256 := by
            rw [Nat.add_sub_cancel]
            exact htab c
          have hrel2 := relS_setBase s₁4 s₁5 hrel1 (base + (table.getD c 0 + 1)) b hb1 hb2
          have hrel3 := relS_setCheck _ _ hrel2 (base + (table.getD c 0 + 1))
            (table.getD c 0 + 1 - 1) hoff
          obtain ⟨s5', h5, hr⟩ := ih _ _ hrel3 s4' hok
          refine ⟨s5', ?_, hr⟩
          simp only [arrangeKids]
          rw [if_neg hc, if_neg hone, heq5]
          exact h5

/-- builder::arrange simulates between the two element widths: a 4-byte
success at any fuel is matched by a 5-byte success with the same base. -/
theorem arrange_sim {V : Type} (wr : V → List Byte) (table : List Byte)
    (htab : ∀ c, table.getD c 0 < 256) :
    ∀ (fuel p : Nat) (recs : List (Record V)) (s4 : BState da4) (s5 : BState da5),
      relS s4 s5 →
      relOutA (arrange da4 wr table fuel p recs s4) (arrange da5 wr table fuel p recs s5) := by
  intro fuel
  induction fuel with
  | zero =>
    intro p recs s4 s5 h b s4' hok
    rw [arrange_zero] at hok
    exact Except.noConfusion hok
  | succ fuel ih =>
    intro p recs s4 s5 hrel b s4' hok
    rw [arrange_succ] at hok
    rw [arrange_succ]
    rcases recs with _ | ⟨r, rest⟩
    · simp only [arrangeGo, scanGroups, List.map_nil] at hok
      exact Except.noConfusion hok
    rcases rest with _ | ⟨r2, rest2⟩
    · simp only [arrangeGo] at hok
      split at hok
      · exact Except.noConfusion hok
      · rename_i hcap
        injection hok with h'
        injection h' with hb hs
        subst hb
        subst hs
        obtain ⟨hlen, hel, htl, hub, helink⟩ := hrel
        have hmax4 : da4.maxBase = 0x7FFFFF := rfl
        rw [hmax4] at hcap
        have hcap5 : ¬ (da5.maxBase < s5.tl.length) := by
          have hmax5 : da5.maxBase = 0x7FFFFFFF := rfl
          rw [hmax5, ← htl]
          omega
        refine ⟨⟨by omega, by omega⟩, ?_⟩
        refine ⟨{ s5 with tl := s5.tl ++ cstrFrom r.key p ++ wr r.val }, ?_, ?_⟩
        · simp only [arrangeGo]
          rw [if_neg hcap5, htl]
        · exact ⟨hlen, hel, by rw [htl], hub, helink⟩
    · simp only [arrangeGo] at hok
      split at hok
      · exact Except.noConfusion hok
      · rename_i children heqG
        split at hok
        · exact Except.noConfusion hok
        · rename_i off0 offsRest heqO
          rw [heqO] at hok
          split at hok
          · exact Except.noConfusion hok
          · rename_i base s₁4 heqF
            split at hok
            · exact Except.noConfusion hok
            · rename_i hcap
              split at hok
              · exact Except.noConfusion hok
              · rename_i s₄4 heqK
                injection hok with h'
                injection h' with hb hs
                subst hb
                subst hs
                obtain ⟨s₁5, heqF5, hrel1⟩ :=
                  findBase_sim off0 _ offsRest fuel s4 s5 0 hrel base s₁4 heqF
                have hrel2 := relS_ubRegister _ _ hrel1 base
                have hrel3 := relS_reserveKids base (off0 :: offsRest) _ _ hrel2
                obtain ⟨s₄5, heqK5, hrel4⟩ := arrangeKids_sim table htab
                  (arrange da4 wr table fuel) (arrange da5 wr table fuel)
                  (fun q recs t4 t5 h => ih q recs t4 t5 h)
                  p base children _ _ hrel3 s₄4 heqK
                have h45 : da4.maxBase ≤ da5.maxBase := by decide
                have hcap5 := fun hq => hcap (le_trans h45 hq)
                have hmax4 : da4.maxBase = 0x7FFFFF := rfl
                rw [hmax4] at hcap
                refine ⟨⟨by omega, by omega⟩, s₄5, ?_, hrel4⟩
                simp only [arrangeGo, heqG, heqO, heqF5, heqK5]
                rw [if_neg hcap5]

/-- Unlinking a vacancy-list slot preserves the state relation. -/
theorem relS_elinkUse (s4 : BState da4) (s5 : BState da5) (h : relS s4 s5) (i : Nat) :
    relS { s4 with elink := vlUse s4.elink i } { s5 with elink := vlUse s5.elink i } :=
  ⟨h.1, h.2.1, h.2.2.1, h.2.2.2.1, by rw [h.2.2.2.2]⟩

/-- builder::build simulates between the element widths: whenever the 4-byte
build succeeds, the 5-byte build on the same input succeeds with a related
final state. -/
theorem buildDA_sim {V : Type} (wr : V → List Byte) (table : List Byte)
    (htab : ∀ c, table.getD c 0 < 256) (fuel : Nat) (recs : List (Record V)) :
    ∀ s4f, buildDA da4 wr table fuel recs = .ok s4f →
      ∃ s5f, buildDA da5 wr table fuel recs = .ok s5f ∧ relS s4f s5f := by
  intro s4f hok
  have h0 : relS ⟨[da4.dflt], [0], [], [(0, 1)]⟩ ⟨[da5.dflt], [0], [], [(0, 1)]⟩ := by
    refine ⟨rfl, ?_, rfl, rfl, rfl⟩
    intro i
    rcases i with _ | i
    · exact relE_dflt
    · exact relE_dflt
  have h1 := relS_expandStep _ _ h0 2
  have h2 := relS_setBase _ _ h1 1 1 (by norm_num) (by norm_num)
  have h3 := relS_elinkUse _ _ h2 1
  simp only [buildDA] at hok
  split at hok
  · exact Except.noConfusion hok
  · rename_i b s5arr heqA
    obtain ⟨⟨hb1, hb2⟩, s5', heqA5, hrelA⟩ :=
      arrange_sim wr table htab fuel 0 recs _ _ h3 b s5arr heqA
    injection hok with hs
    subst hs
    have hfin := relS_setBase _ _ hrelA 1 b hb1 hb2
    refine ⟨_, ?_, hfin⟩
    simp only [buildDA]
    rw [heqA5]

/-- assign-from-builder on related builder states yields related tries. -/
theorem relT_ofBuilder (s4 : BState da4) (s5 : BState da5) (h : relS s4 s5)
    (table : List Byte) :
    relT (trieOfBuilder da4 s4 table) (trieOfBuilder da5 s5 table) :=
  ⟨rfl, h.1, h.2.1, by show ITail.mk s4.tl 0 = ITail.mk s5.tl 0; rw [h.2.2.1], rfl⟩

/-- trie::descend computes identically on related tries. -/
theorem descend_eq (t4 : Trie da4) (t5 : Trie da5) (h : relT t4 t5) (i : Nat) (c : Byte) :
    descend da4 t4 i c = descend da5 t5 i c := by
  obtain ⟨htab, hlen, hel, htl, hn⟩ := h
  simp only [descend]
  rw [relE_base_eq _ _ (hel i), htab, hlen, relE_check_eq _ _ (hel _)]

/-- The descent loop of trie::locate computes identically on related tries. -/
theorem locLoop_eq (t4 : Trie da4) (t5 : Trie da5) (h : relT t4 t5) :
    ∀ (key : List Byte) (cur : Nat), locLoop da4 t4 cur key = locLoop da5 t5 cur key := by
  have hb : ∀ j, da4.getBase (t4.da.getD j da4.dflt) = da5.getBase (t5.da.getD j da5.dflt) :=
    fun j => relE_base_eq _ _ (h.2.2.1 j)
  have hd : ∀ i c, descend da4 t4 i c = descend da5 t5 i c := descend_eq t4 t5 h
  intro key
  induction key with
  | nil =>
    intro cur
    simp only [locLoop, hd, hb]
  | cons c rest ih =>
    intro cur
    simp only [locLoop, hd, hb, ih]

/-- trie::locate returns the same offset on related tries, and the resulting
tries remain related. -/
theorem locate_eq (t4 : Trie da4) (t5 : Trie da5) (h : relT t4 t5) (key : List Byte) :
    (locate da4 t4 key).1 = (locate da5 t5 key).1 ∧
      relT (locate da4 t4 key).2 (locate da5 t5 key).2 := by
  obtain ⟨htab, hlen, hel, htl, hn⟩ := h
  simp only [locate]
  rw [locLoop_eq t4 t5 ⟨htab, hlen, hel, htl, hn⟩ key 1]
  cases hL : locLoop da5 t5 1 key with
  | none => exact ⟨rfl, htab, hlen, hel, htl, hn⟩
  | some v =>
    simp only [htl]
    by_cases hm : (t5.tl.seekg v.1).matchString v.2 = true
    · rw [if_pos hm, if_pos hm]
      exact ⟨rfl, htab, hlen, hel, rfl, hn⟩
    · rw [if_neg hm, if_neg hm]
      exact ⟨rfl, htab, hlen, hel, rfl, hn⟩

/-- trie::in returns the same boolean on related tries. -/
theorem trieIn_eq (t4 : Trie da4) (t5 : Trie da5) (h : relT t4 t5) (key : List Byte) :
    (trieIn da4 t4 key).1 = (trieIn da5 t5 key).1 := by
  simp only [trieIn]
  rw [(locate_eq t4 t5 h key).1]

/-- trie::find returns the same boolean and the same value on related tries. -/
theorem trieFind_eq {V : Type} (codec : Codec V) (t4 : Trie da4) (t5 : Trie da5)
    (h : relT t4 t5) (key : List Byte) :
    (trieFind da4 codec t4 key).1 = (trieFind da5 codec t5 key).1 ∧
      (trieFind da4 codec t4 key).2.1 = (trieFind da5 codec t5 key).2.1 := by
  obtain ⟨hoff, _, _, _, htl', _⟩ := locate_eq t4 t5 h key
  simp only [trieFind]
  rw [hoff, htl']
  by_cases hz : (locate da5 t5 key).1 ≠ 0
  · rw [if_pos hz, if_pos hz]
    exact ⟨rfl, rfl⟩
  · rw [if_neg hz, if_neg hz]
    exact ⟨rfl, rfl⟩

/-- The post-descent tail match of next_prefix computes identically on
related tries. -/
theorem npTail_eq {V : Type} (codec : Codec V) (t4 : Trie da4) (t5 : Trie da5)
    (h : relT t4 t5) (pfx : PfxCursor V) (off : Nat) :
    npOutSim (npTail da4 codec t4 pfx off) (npTail da5 codec t5 pfx off) := by
  obtain ⟨htab, hlen, hel, htl, hn⟩ := h
  simp only [npTail, htl]
  by_cases hm : (t5.tl.seekg off).matchStrPart (pfx.query.drop pfx.length) = true
  · rw [if_pos hm, if_pos hm]
    exact ⟨rfl, rfl, htab, hlen, hel, rfl, hn⟩
  · rw [if_neg hm, if_neg hm]
    exact ⟨rfl, rfl, htab, hlen, hel, rfl, hn⟩

/-- The descent loop of next_prefix computes identically on related tries. -/
theorem npLoop_eq {V : Type} (codec : Codec V) (t4 : Trie da4) (t5 : Trie da5)
    (h : relT t4 t5) :
    ∀ (fuel : Nat) (pfx : PfxCursor V),
      npOutSim (npLoop da4 codec fuel t4 pfx) (npLoop da5 codec fuel t5 pfx) := by
  obtain ⟨htab, hlen, hel, htl, hn⟩ := h
  have hb : ∀ j, da4.getBase (t4.da.getD j da4.dflt) = da5.getBase (t5.da.getD j da5.dflt) :=
    fun j => relE_base_eq _ _ (hel j)
  have hd : ∀ i c, descend da4 t4 i c = descend da5 t5 i c :=
    descend_eq t4 t5 ⟨htab, hlen, hel, htl, hn⟩
  intro fuel
  induction fuel with
  | zero => intro pfx; exact trivial
  | succ fuel ih =>
    intro pfx
    simp only [npLoop, hd, hb, htl]
    by_cases h0 : descend da5 t5 pfx.cur (byteAt pfx.query pfx.length) = 0
    · rw [if_pos h0, if_pos h0]
      exact ⟨rfl, rfl, htab, hlen, hel, htl, hn⟩
    · rw [if_neg h0, if_neg h0]
      by_cases hneg : da5.getBase
          (t5.da.getD (descend da5 t5 pfx.cur (byteAt pfx.query pfx.length)) da5.dflt) < 0
      · rw [if_pos hneg, if_pos hneg]
        exact npTail_eq codec t4 t5 ⟨htab, hlen, hel, htl, hn⟩ _ _
      · rw [if_neg hneg, if_neg hneg]
        by_cases hc0 : descend da5 t5 (descend da5 t5 pfx.cur (byteAt pfx.query pfx.length)) 0 ≠ 0 ∧
            da5.getBase (t5.da.getD
              (descend da5 t5 (descend da5 t5 pfx.cur (byteAt pfx.query pfx.length)) 0)
              da5.dflt) ≠ 0
        · rw [if_pos hc0, if_pos hc0]
          by_cases hpos : 0 ≤ da5.getBase (t5.da.getD
              (descend da5 t5 (descend da5 t5 pfx.cur (byteAt pfx.query pfx.length)) 0)
              da5.dflt)
          · rw [if_pos hpos, if_pos hpos]
            exact trivial
          · rw [if_neg hpos, if_neg hpos]
            by_cases hsl : (t5.tl.seekg (-da5.getBase (t5.da.getD
                (descend da5 t5 (descend da5 t5 pfx.cur (byteAt pfx.query pfx.length)) 0)
                da5.dflt)).toNat).strlenAt ≠ 0
            · rw [if_pos hsl, if_pos hsl]
              exact trivial
            · rw [if_neg hsl, if_neg hsl]
              exact ⟨rfl, rfl, htab, hlen, hel, rfl, hn⟩
        · rw [if_neg hc0, if_neg hc0]
          by_cases hc : byteAt pfx.query pfx.length = 0
          · rw [if_pos hc, if_pos hc]
            exact ⟨rfl, rfl, htab, hlen, hel, htl, hn⟩
          · rw [if_neg hc, if_neg hc]
            exact ih _

/-- One next_prefix call computes identically on related tries. -/
theorem nextPfx_eq {V : Type} (codec : Codec V) (t4 : Trie da4) (t5 : Trie da5)
    (h : relT t4 t5) (pfx : PfxCursor V) :
    npOutSim (nextPfx da4 codec t4 pfx) (nextPfx da5 codec t5 pfx) := by
  simp only [nextPfx]
  by_cases hq : strlenC pfx.query ≤ pfx.length
  · rw [if_pos hq, if_pos hq]
    exact ⟨rfl, rfl, h⟩
  · rw [if_neg hq, if_neg hq]
    exact npLoop_eq codec t4 t5 h _ _

/-- Repeated next() calls enumerate the same hits on related tries. -/
theorem enumPfx_eq {V : Type} (codec : Codec V) :
    ∀ (steps : Nat) (t4 : Trie da4) (t5 : Trie da5), relT t4 t5 →
      ∀ (pfx : PfxCursor V),
        enumPfx da4 codec steps t4 pfx = enumPfx da5 codec steps t5 pfx := by
  intro steps
  induction steps with
  | zero => intro t4 t5 h pfx; rfl
  | succ steps ih =>
    intro t4 t5 h pfx
    have hs := nextPfx_eq codec t4 t5 h pfx
    simp only [enumPfx]
    cases h4 : nextPfx da4 codec t4 pfx with
    | ret b4 p4 t4' =>
      rw [h4] at hs
      cases h5 : nextPfx da5 codec t5 pfx with
      | ret b5 p5 t5' =>
        rw [h5] at hs
        obtain ⟨hbeq, hpeq, hteq⟩ := hs
        subst hbeq
        subst hpeq
        cases b4 with
        | false => rfl
        | true =>
          show (p4.length, p4.val) :: enumPfx da4 codec steps t4' p4 =
            (p4.length, p4.val) :: enumPfx da5 codec steps t5' p4
          rw [ih t4' t5' hteq p4]
      | corrupt => rw [h5] at hs; exact hs.elim
      | fuelOut => rw [h5] at hs; exact hs.elim
    | corrupt =>
      rw [h4] at hs
      cases h5 : nextPfx da5 codec t5 pfx with
      | ret b5 p5 t5' => rw [h5] at hs; exact hs.elim
      | corrupt => rfl
      | fuelOut => rfl
    | fuelOut =>
      rw [h4] at hs
      cases h5 : nextPfx da5 codec t5 pfx with
      | ret b5 p5 t5' => rw [h5] at hs; exact hs.elim
      | corrupt => rfl
      | fuelOut => rfl

/-- Every entry a table lookup can yield is a byte, for a table whose
entries are bytes. -/
theorem table_getD_lt (table : List Byte)
    (htab : table.all (fun v => decide (v < 256)) = true) (c : Nat) :
    table.getD c 0 < 256 := by
  rw [List.getD_eq_getElem?_getD]
  cases hc : table[c]? with
  | none => decide
  | some v =>
    have hv := List.getElem?_mem hc
    have := List.all_eq_true.mp htab v hv
    exact of_decide_eq_true this

/-- C8: width neutrality.  For every record list, character table with byte
entries and fuel for which the 4-byte-element build succeeds, the 5-byte
build succeeds as well, and the tries the two builds hand to the reader give
identical results for in(k), find(k) (both the boolean and the value) and
prefix enumeration, on every query and step count. -/
theorem width_neutrality {V : Type} (codec : Codec V) (table : List Byte)
    (fuel : Nat) (recs : List (Record V))
    (htab : table.all (fun v => decide (v < 256)) = true)
    (h4 : exOk (buildDA da4 codec.wr table fuel recs) = true) :
    ∀ (key : List Byte) (steps : Nat),
      inAfterBuild da4 codec table fuel recs key =
        inAfterBuild da5 codec table fuel recs key ∧
      findAfterBuild da4 codec table fuel recs key =
        findAfterBuild da5 codec table fuel recs key ∧
      findValAfterBuild da4 codec table fuel recs key =
        findValAfterBuild da5 codec table fuel recs key ∧
      enumAfterBuild da4 codec table fuel recs steps key =
        enumAfterBuild da5 codec table fuel recs steps key := by
  intro key steps
  cases heq4 : buildDA da4 codec.wr table fuel recs with
  | error e => rw [heq4] at h4; exact Bool.noConfusion h4
  | ok s4f =>
    obtain ⟨s5f, heq5, hrel⟩ :=
      buildDA_sim codec.wr table (table_getD_lt table htab) fuel recs s4f heq4
    have hT := relT_ofBuilder s4f s5f hrel table
    refine ⟨?_, ?_, ?_, ?_⟩
    · simp only [inAfterBuild, heq4, heq5]
      rw [trieIn_eq _ _ hT key]
    · simp only [findAfterBuild, heq4, heq5]
      rw [(trieFind_eq codec _ _ hT key).1]
    · simp only [findValAfterBuild, heq4, heq5]
      rw [(trieFind_eq codec _ _ hT key).2]
    · simp only [enumAfterBuild, heq4, heq5]
      rw [enumPfx_eq codec steps _ _ hT (mkCursor key)]

set_option maxRecDepth 8192 in
/-- C8 witness: the hypotheses and the conclusion of `width_neutrality` at a
concrete input: the records "a","b" with the empty value codec, a valid
build_table result for them, fuel 50, query "ab" and 3 next() calls. -/
theorem width_neutrality_at_concrete :
    ((tableFromOrder ordB).all (fun v => decide (v < 256)) = true ∧
      exOk (buildDA da4 emptyCodec.wr (tableFromOrder ordB) 50 recsAB) = true) ∧
    (inAfterBuild da4 emptyCodec (tableFromOrder ordB) 50 recsAB [97, 98] =
        inAfterBuild da5 emptyCodec (tableFromOrder ordB) 50 recsAB [97, 98] ∧
      findAfterBuild da4 emptyCodec (tableFromOrder ordB) 50 recsAB [97, 98] =
        findAfterBuild da5 emptyCodec (tableFromOrder ordB) 50 recsAB [97, 98] ∧
      findValAfterBuild da4 emptyCodec (tableFromOrder ordB) 50 recsAB [97, 98] =
        findValAfterBuild da5 emptyCodec (tableFromOrder ordB) 50 recsAB [97, 98] ∧
      enumAfterBuild da4 emptyCodec (tableFromOrder ordB) 50 recsAB 3 [97, 98] =
        enumAfterBuild da5 emptyCodec (tableFromOrder ordB) 50 recsAB 3 [97, 98]) :=
  ⟨⟨by decide, by decide⟩,
    width_neutrality emptyCodec (tableFromOrder ordB) 50 recsAB
      (by decide) (by decide) [97, 98] 3⟩

end Dastrie
